import Mathlib

/-!
Verification development for the identity-anchored lineage core of the
`persistent-reasoning-architecture` repository
(`appendix/A1_identity_formalization/code/`).

The Python modules `canonicalization.py`, `identity.py`, `lineage_store.py`
and `merge_engine.py` are shallowly embedded below:

* structured payload values become the inductive type `Val`
  (Python `None`/`bool`/`int`/`float`/`str`/`dict`/`list`+`tuple`/`set`,
  plus a `bytes` constructor for the always-rejected bytes-like inputs);
* Python dictionaries become association lists manipulated through `dset`
  (assignment `d[k] = v`: replace in place or append) and `dgetD`
  (`d.get(k)`), so that insertion order is preserved the way CPython
  preserves it;
* Python sets become `Finset String`;
* raised exceptions become `Except Err` results (`Err` lists the exception
  kinds that can actually propagate out of the embedded code paths);
* the random `uuid.uuid4().hex` commit identifier and the wall-clock
  timestamp taken by `LineageStore.append` become explicit parameters —
  freshness of the generated id, which the code silently assumes of uuid4,
  becomes an explicit hypothesis where a theorem needs it;
* `hashlib.blake2b(·, digest_size=32).hexdigest()` is an external library
  primitive; it is modelled as an explicit function parameter
  `hash : String → String`, so every statement about fingerprints holds for
  the actual blake2b instantiation.

Floating point: `_normalize_number` maps a Python float to
`float(f"{x:.17g}")` and `json.dumps` then renders that double
deterministically.  The constructor `Val.float` carries that final rendered
decimal string opaquely; no claim below exercises float arithmetic.
-/

/-- Exception kinds that can escape the embedded code paths.
`canonicalizationError`, `identityError`, `lineageError` and `mergeError`
model the four library exception classes; `keyError` models a raw Python
`KeyError` escaping a dict subscript; `assertionError` models a failing
`assert`; `nonTermination` marks fuel exhaustion of an embedded loop, i.e.
a point where the Python original would diverge (it is proved unreachable
for the stores the claims quantify over). -/
inductive Err
  | canonicalizationError
  | identityError
  | lineageError
  | mergeError
  | keyError
  | assertionError
  | nonTermination
deriving DecidableEq

/-- Decidable equality of embedded results (used only to evaluate the
theorems on concrete demo inputs). -/
instance {e a : Type} [DecidableEq e] [DecidableEq a] :
    DecidableEq (Except e a) := fun x y =>
  match x, y with
  | .ok v, .ok w =>
    if h : v = w then isTrue (by rw [h])
    else isFalse (by intro hh; injection hh; exact h (by assumption))
  | .error v, .error w =>
    if h : v = w then isTrue (by rw [h])
    else isFalse (by intro hh; injection hh; exact h (by assumption))
  | .ok _, .error _ => isFalse (by intro hh; exact Except.noConfusion hh)
  | .error _, .ok _ => isFalse (by intro hh; exact Except.noConfusion hh)

/-- Structured values accepted by `canonicalize_payload`
(`canonicalization.py`): primitives, string-keyed mappings, sequences
(list/tuple), sets, and the rejected bytes-like values.  `float` carries
the stable rendered representation of the normalized IEEE-754 double
(see the file comment).  A Python `set` can only hold hashable elements;
the embedding is more permissive and allows any element list, which only
enlarges the domain the theorems quantify over. -/
inductive Val
  | null
  | bool (b : Bool)
  | int (n : Int)
  | float (r : String)
  | str (s : String)
  | map (entries : List (String × Val))
  | list (xs : List Val)
  | set (xs : List Val)
  | bytes (n : Nat)

/-- Normalized values: the image of `_normalize`, i.e. exactly the shapes
`json.dumps` is given (sets are already gone, replaced by sorted lists of
canonical strings). -/
inductive JVal
  | null
  | bool (b : Bool)
  | int (n : Int)
  | float (r : String)
  | str (s : String)
  | obj (entries : List (String × JVal))
  | arr (xs : List JVal)

/-- Python dict read, `d.get(k)`: first (and, for dicts, only) binding of
the key. -/
def dgetD {α : Type} : List (String × α) → String → Option α
  | [], _ => none
  | (k', v) :: rest, k => if k' = k then some v else dgetD rest k

/-- Python dict write, `d[k] = v`: replace the existing binding in place,
otherwise append a new binding at the end (CPython insertion order). -/
def dset {α : Type} : List (String × α) → String → α → List (String × α)
  | [], k, v => [(k, v)]
  | (k', v') :: rest, k, v =>
    if k' = k then (k, v) :: rest else (k', v') :: dset rest k v

/-- Lowercase hexadecimal digit. -/
def hexDigit (n : Nat) : Char :=
  if n < 10 then Char.ofNat (48 + n) else Char.ofNat (87 + n)

/-- Four lowercase hex digits, as in json's `\u00XX` escapes. -/
def hex4 (n : Nat) : String :=
  String.mk [hexDigit (n / 4096 % 16), hexDigit (n / 256 % 16),
             hexDigit (n / 16 % 16), hexDigit (n % 16)]

/-- Escape of one character inside a json string literal, as produced by
`json.dumps(..., ensure_ascii=False)`: `"` and `\` are backslash-escaped,
the five named control characters get their short escapes, the remaining
control characters below U+0020 get `\uXXXX`, everything else is emitted
verbatim. -/
def escChar (c : Char) : String :=
  if c = '"' then "\\\""
  else if c = '\\' then "\\\\"
  else if c = '\n' then "\\n"
  else if c = '\t' then "\\t"
  else if c = '\r' then "\\r"
  else if c = Char.ofNat 8 then "\\b"
  else if c = Char.ofNat 12 then "\\f"
  else if c.toNat < 32 then "\\u" ++ hex4 c.toNat
  else String.singleton c

/-- Rendered json string literal (quotes included). -/
def encStr (s : String) : String :=
  "\"" ++ String.join (s.data.map escChar) ++ "\""

/-- Comma-separated join, as forced by `separators=(",", ":")`. -/
def joinComma : List String → String
  | [] => ""
  | [x] => x
  | x :: y :: rest => x ++ "," ++ joinComma (y :: rest)

/-- Lexicographic code-point comparison of character lists: Python's `<=`
on strings.  (Core's `String` order is semantically the same but is defined
through well-founded recursion and does not evaluate inside the kernel,
so the embedding carries its own comparison.) -/
def strLeB : List Char → List Char → Bool
  | [], _ => true
  | _ :: _, [] => false
  | c :: cs, d :: ds =>
    if c.toNat < d.toNat then true
    else if d.toNat < c.toNat then false
    else strLeB cs ds

/-- Python's `<=` on strings, as a proposition. -/
def strLe (a b : String) : Prop := strLeB a.data b.data = true

instance : DecidableRel strLe :=
  fun a b => inferInstanceAs (Decidable (strLeB a.data b.data = true))

theorem strLeB_total : ∀ as bs : List Char, strLeB as bs = true ∨ strLeB bs as = true
  | [], _ => Or.inl rfl
  | _ :: _, [] => Or.inr rfl
  | c :: cs, d :: ds => by
    rcases Nat.lt_trichotomy c.toNat d.toNat with h | h | h
    · left; simp [strLeB, h]
    · rcases strLeB_total cs ds with ih | ih
      · left; simp [strLeB, h, ih]
      · right; simp [strLeB, h.symm, ih]
    · right; simp [strLeB, h]

theorem strLeB_trans : ∀ as bs cs : List Char,
    strLeB as bs = true → strLeB bs cs = true → strLeB as cs = true
  | [], _, _, _, _ => rfl
  | _ :: _, [], _, h, _ => by simp [strLeB] at h
  | _ :: _, _ :: _, [], _, h => by simp [strLeB] at h
  | a :: as, b :: bs, c :: cs, h₁, h₂ => by
    simp only [strLeB] at h₁ h₂ ⊢
    rcases Nat.lt_trichotomy a.toNat b.toNat with hab | hab | hab
    · rcases Nat.lt_trichotomy b.toNat c.toNat with hbc | hbc | hbc
      · rw [if_pos (by omega)]
      · rw [if_pos (by omega)]
      · rw [if_neg (by omega), if_pos (by omega)] at h₂
        simp at h₂
    · rcases Nat.lt_trichotomy b.toNat c.toNat with hbc | hbc | hbc
      · rw [if_pos (by omega)]
      · rw [if_neg (by omega), if_neg (by omega)] at h₁
        rw [if_neg (by omega), if_neg (by omega)] at h₂
        rw [if_neg (by omega), if_neg (by omega)]
        exact strLeB_trans as bs cs h₁ h₂
      · rw [if_neg (by omega), if_pos (by omega)] at h₂
        simp at h₂
    · rw [if_neg (by omega), if_pos (by omega)] at h₁
      simp at h₁

theorem strLeB_antisymm : ∀ as bs : List Char,
    strLeB as bs = true → strLeB bs as = true → as = bs
  | [], [], _, _ => rfl
  | [], _ :: _, _, h => by simp [strLeB] at h
  | _ :: _, [], h, _ => by simp [strLeB] at h
  | a :: as, b :: bs, h₁, h₂ => by
    simp only [strLeB] at h₁ h₂
    rcases Nat.lt_trichotomy a.toNat b.toNat with hab | hab | hab
    · simp [hab, Nat.lt_asymm hab] at h₂
    · have hne : ¬ a.toNat < b.toNat := by omega
      have hne' : ¬ b.toNat < a.toNat := by omega
      rw [if_neg hne, if_neg hne'] at h₁
      rw [if_neg hne', if_neg hne] at h₂
      have htl : as = bs := strLeB_antisymm as bs h₁ h₂
      have hhd : a = b := Char.eq_of_val_eq (UInt32.ext hab)
      rw [hhd, htl]
    · simp [hab, Nat.lt_asymm hab] at h₁

instance : IsTotal String strLe := ⟨fun a b => strLeB_total a.data b.data⟩

instance : IsTrans String strLe :=
  ⟨fun a b c h₁ h₂ => strLeB_trans a.data b.data c.data h₁ h₂⟩

instance : IsAntisymm String strLe :=
  ⟨fun a b h₁ h₂ => by
    cases a; cases b
    exact congrArg String.mk (strLeB_antisymm _ _ h₁ h₂)⟩

/-- Key order used by `json.dumps(..., sort_keys=True)`: ascending string
keys, compared the way Python compares strings. -/
def keyLe {α : Type} (a b : String × α) : Prop := strLe a.1 b.1

instance {α : Type} : DecidableRel (@keyLe α) :=
  fun a b => inferInstanceAs (Decidable (strLe a.1 b.1))

instance {α : Type} : IsTotal (String × α) keyLe :=
  ⟨fun a b => strLeB_total a.1.data b.1.data⟩

instance {α : Type} : IsTrans (String × α) keyLe :=
  ⟨fun _ _ _ h₁ h₂ => strLeB_trans _ _ _ h₁ h₂⟩

/-- Stable sort of rendered object entries by key.  `json.dumps` sorts the
dict items by key and then renders each value; rendering does not touch the
keys, so sorting the (key, rendered value) pairs by key is the same list. -/
def sortEntries (l : List (String × String)) : List (String × String) :=
  List.insertionSort keyLe l

/-- Rendered `"key":value` pair of a json object. -/
def renderPair (p : String × String) : String := encStr p.1 ++ ":" ++ p.2

mutual

/-- Rendering of a normalized value by
`json.dumps(ensure_ascii=False, sort_keys=True, separators=(",", ":"))`. -/
def dumps : JVal → String
  | .null => "null"
  | .bool true => "true"
  | .bool false => "false"
  | .int n => toString n
  | .float r => r
  | .str s => encStr s
  | .obj es =>
    "\x7b" ++ joinComma ((sortEntries (dumpsEntries es)).map renderPair) ++ "\x7d"
  | .arr xs => "[" ++ joinComma (dumpsList xs) ++ "]"

/-- Values of an array, rendered in order. -/
def dumpsList : List JVal → List String
  | [] => []
  | x :: xs => dumps x :: dumpsList xs

/-- Entries of an object with the value rendered, keys untouched. -/
def dumpsEntries : List (String × JVal) → List (String × String)
  | [] => []
  | (k, v) :: es => (k, dumps v) :: dumpsEntries es

end

mutual

/-- Translation of `_normalize` (`canonicalization.py`).  Primitives map to
themselves (`_normalize_number` keeps bools and ints and has already been
applied to the rendered float representation), mappings normalize each value
into a fresh dict (`out[k] = _normalize(v)`, hence later duplicate keys
overwrite earlier ones), sequences normalize elementwise, sets normalize
each element, render each normalized element canonically, and sort the
resulting strings; bytes-like values are rejected
(`CanonicalizationError`, here `none`).  In the source the per-element
canonical strings are obtained by `canonicalize_payload(x)` on the already
normalized `x`; `_normalize` is the identity on its own output (lemma
`normalize_toVal` below), so this equals rendering the element directly. -/
def _normalize : Val → Option JVal
  | .null => some .null
  | .bool b => some (.bool b)
  | .int n => some (.int n)
  | .float r => some (.float r)
  | .str s => some (.str s)
  | .map es => (_normalize_into [] es).map .obj
  | .list xs => (_normalize_list xs).map .arr
  | .set xs =>
    (_normalize_list xs).map fun items =>
      .arr (((items.map dumps).insertionSort strLe).map .str)
  | .bytes _ => none

/-- The `out` dict built by the Mapping branch of `_normalize`: entries are
normalized in order and assigned into `out`. -/
def _normalize_into (out : List (String × JVal)) :
    List (String × Val) → Option (List (String × JVal))
  | [] => some out
  | (k, v) :: rest =>
    match _normalize v with
    | none => none
    | some nv => _normalize_into (dset out k nv) rest

/-- Elementwise normalization of a sequence. -/
def _normalize_list : List Val → Option (List JVal)
  | [] => some []
  | x :: xs =>
    match _normalize x with
    | none => none
    | some nx => (_normalize_list xs).map (nx :: ·)

end

/-- Translation of `canonicalize_payload` (`canonicalization.py`):
normalize, then render with `json.dumps(ensure_ascii=False, sort_keys=True,
separators=(",", ":"))`.  The `TypeError` fallback inside the source's
`try` cannot fire on `_normalize` output, whose shapes are all
json-serializable; every `CanonicalizationError` is raised by `_normalize`
itself (`none` here). -/
def canonicalize_payload (obj : Val) : Option String :=
  (_normalize obj).map dumps

mutual

/-- Embedding of normalized values back into payload values (a normalized
Python object is in particular a valid `canonicalize_payload` input). -/
def JVal.toVal : JVal → Val
  | .null => .null
  | .bool b => .bool b
  | .int n => .int n
  | .float r => .float r
  | .str s => .str s
  | .obj es => .map (toValEntries es)
  | .arr xs => .list (toValList xs)

/-- Entrywise embedding of object entries. -/
def toValEntries : List (String × JVal) → List (String × Val)
  | [] => []
  | (k, v) :: es => (k, v.toVal) :: toValEntries es

/-- Elementwise embedding of array elements. -/
def toValList : List JVal → List Val
  | [] => []
  | x :: xs => x.toVal :: toValList xs

end

example : canonicalize_payload (.map [("b", .int 1), ("a", .null)]) =
    some "\x7b\"a\":null,\"b\":1\x7d" := by rfl

example : canonicalize_payload (.set [.int 1]) = some "[\"1\"]" := by rfl

/-- The `material` dict built inside `canonical_fingerprint` (`identity.py`),
with the payload already canonicalized to the string `canonical`: the
envelope `{version, kind, namespace, scope, payload}` in source order. -/
def fingerprint_material (kind nspace scope version canonical : String) : Val :=
  .map [("version", .str version), ("kind", .str kind),
        ("namespace", .str nspace), ("scope", .str scope),
        ("payload", .str canonical)]

/-- Translation of `canonical_fingerprint` (`identity.py`).  The payload is
a string-keyed mapping (`Mapping[str, Any]`).  `hash` stands for
`_blake2b_256`, the hex digest of blake2b with a 32-byte digest applied to
the UTF-8 bytes of the outer canonical string; it is a fixed pure function
supplied as a parameter.  Empty `kind` or `namespace` raise `IdentityError`;
a non-canonicalizable payload raises `CanonicalizationError`. -/
def canonical_fingerprint (hash : String → String) (kind nspace : String)
    (payload : List (String × Val)) (scope version : String) :
    Except Err String :=
  if kind = "" ∨ nspace = "" then .error .identityError
  else
    match canonicalize_payload (.map payload) with
    | none => .error .canonicalizationError
    | some canonical =>
      match canonicalize_payload
          (fingerprint_material kind nspace scope version canonical) with
      | none => .error .canonicalizationError
      | some outer => .ok (hash outer)

/-- Translation of the `IdentityAnchor` dataclass (`identity.py`).
`nspace` models the source field `namespace` (a reserved word here). -/
structure IdentityAnchor where
  id : String
  kind : String
  nspace : String
  scope : String
  version : String
deriving DecidableEq

/-- Translation of `IdentityAnchor.create`: compute the fingerprint and
package it with the metadata. -/
def IdentityAnchor.create (hash : String → String) (kind nspace : String)
    (payload : List (String × Val)) (scope version : String) :
    Except Err IdentityAnchor :=
  (canonical_fingerprint hash kind nspace payload scope version).map
    fun fp => ⟨fp, kind, nspace, scope, version⟩

/-- Translation of the `Commit` dataclass (`lineage_store.py`).  The
payload is the string-keyed mapping stored by `append`; `timestamp_ms` is
the wall-clock milliseconds value, supplied explicitly to `append`. -/
structure Commit where
  commit_id : String
  timestamp_ms : Int
  parents : List String
  op : String
  subject_id : String
  subject_kind : String
  subject_namespace : String
  subject_scope : String
  payload : List (String × Val)
  note : String

/-- Translation of the `LineageStore` dataclass: the `_commits` dict
(commit id → commit, in insertion order) and the `_children` dict
(commit id → set of child ids). -/
structure LineageStore where
  commits : List (String × Commit)
  children : List (String × Finset String)

/-- The empty store a fresh `LineageStore()` starts from. -/
def LineageStore.empty : LineageStore := ⟨[], []⟩

/-- Translation of `LineageStore.exists`. -/
def LineageStore.exists (st : LineageStore) (commit_id : String) : Bool :=
  (dgetD st.commits commit_id).isSome

/-- Translation of `LineageStore.get`: raises `LineageError` on an unknown
commit id. -/
def LineageStore.get (st : LineageStore) (commit_id : String) :
    Except Err Commit :=
  match dgetD st.commits commit_id with
  | none => .error .lineageError
  | some c => .ok c

/-- Translation of `LineageStore.children_of`: a copy of the stored child
set, the empty set for unknown ids. -/
def LineageStore.children_of (st : LineageStore) (commit_id : String) :
    Finset String :=
  (dgetD st.children commit_id).getD ∅

/-- One `self._children.setdefault(p, set()).add(commit_id)` step of
`append`. -/
def addChild (ch : List (String × Finset String)) (p cid : String) :
    List (String × Finset String) :=
  dset ch p (insert cid ((dgetD ch p).getD ∅))

/-- Python `d.setdefault(k, v)`: insert only when the key is absent. -/
def dsetdefault {α : Type} (m : List (String × α)) (k : String) (v : α) :
    List (String × α) :=
  if (dgetD m k).isSome then m else dset m k v

/-- Translation of `LineageStore.append`.  The uuid4 hex commit id and the
millisecond timestamp are explicit parameters `newId` and `ts` (see the
file comment).  The parent check runs before any mutation, so on failure
the returned store is exactly the input store; on success the new commit is
stored, a child edge is linked from each parent, and the new commit is
registered as an initially childless node. -/
def LineageStore.append (st : LineageStore) (newId : String) (ts : Int)
    (parents : List String) (op subject_id subject_kind subject_namespace
    subject_scope : String) (payload : List (String × Val)) (note : String) :
    Except Err Commit × LineageStore :=
  if parents.all fun p => (dgetD st.commits p).isSome then
    let c : Commit := ⟨newId, ts, parents, op, subject_id, subject_kind,
      subject_namespace, subject_scope, payload, note⟩
    let commits' := dset st.commits newId c
    let children' := parents.foldl (fun ch p => addChild ch p newId) st.children
    let children'' := dsetdefault children' newId ∅
    (.ok c, ⟨commits', children''⟩)
  else (.error .lineageError, st)

/-- Every parent id mentioned anywhere in the commit dict: the only ids the
traversal of `ancestors_of` can ever push. -/
def allParents (commits : List (String × Commit)) : Finset String :=
  commits.foldr (fun kc acc => kc.2.parents.toFinset ∪ acc) ∅

/-- Fuel that provably outlasts the `ancestors_of` while-loop: one pop for
the initial id plus at most one pop per parent mention. -/
def fuelOf (commits : List (String × Commit)) : Nat :=
  1 + (commits.map fun kc => kc.2.parents.length).sum

/-- The body of the `for p in self._commits[cur].parents` loop of
`ancestors_of`: each parent not yet visited is added to the visited set and
pushed on the stack.  The stack top is the list head, so parents pushed
left to right are popped in Python's last-in-first-out order. -/
def pushParents (visited : Finset String) (stack : List String) :
    List String → Finset String × List String
  | [] => (visited, stack)
  | p :: ps =>
    if p ∈ visited then pushParents visited stack ps
    else pushParents (insert p visited) (p :: stack) ps

/-- The `while stack:` loop of `ancestors_of`.  A dangling id on the stack
makes the dict subscript `self._commits[cur]` raise a `KeyError`; running
out of fuel marks divergence (proved impossible below for the fuel
`fuelOf`). -/
def ancLoop (commits : List (String × Commit)) :
    Nat → Finset String → List String → Except Err (Finset String)
  | _, visited, [] => .ok visited
  | 0, _, _ :: _ => .error .nonTermination
  | fuel + 1, visited, cur :: rest =>
    match dgetD commits cur with
    | none => .error .keyError
    | some c =>
      let vs := pushParents visited rest c.parents
      ancLoop commits fuel vs.1 vs.2

/-- Translation of `LineageStore.ancestors_of`: `LineageError` on an
unknown id, otherwise the visited-set traversal from the id. -/
def LineageStore.ancestors_of (st : LineageStore) (commit_id : String) :
    Except Err (Finset String) :=
  if (dgetD st.commits commit_id).isSome then
    ancLoop st.commits (fuelOf st.commits) ∅ [commit_id]
  else .error .lineageError

/-- Translation of `LineageStore.lca_candidates`: both ids must exist, then
the intersection of the two ancestor sets each extended with its own
endpoint. -/
def LineageStore.lca_candidates (st : LineageStore) (a b : String) :
    Except Err (Finset String) :=
  if (dgetD st.commits a).isSome ∧ (dgetD st.commits b).isSome then do
    let anc_a ← st.ancestors_of a
    let anc_b ← st.ancestors_of b
    pure ((insert a anc_a) ∩ (insert b anc_b))
  else .error .lineageError

/-- One parent edge of the commit graph: `p` is listed among the parents of
the commit stored under `x`. -/
def ParentOf (commits : List (String × Commit)) (x p : String) : Prop :=
  ∃ c, dgetD commits x = some c ∧ p ∈ c.parents

/-- Proper ancestry: the transitive closure of the parent edges. -/
def Ances (commits : List (String × Commit)) (a b : String) : Prop :=
  Relation.TransGen (ParentOf commits) a b

/-- A parent looked up through the commit dict is mentioned in
`allParents`. -/
theorem mem_allParents : ∀ (commits : List (String × Commit)) (x p : String)
    (c : Commit), dgetD commits x = some c → p ∈ c.parents →
    p ∈ allParents commits
  | [], _, _, _, h, _ => by simp [dgetD] at h
  | (k, c') :: rest, x, p, c, h, hp => by
    simp only [dgetD] at h
    simp only [allParents, List.foldr, Finset.mem_union]
    by_cases hk : k = x
    · rw [if_pos hk] at h
      obtain rfl : c' = c := by injection h
      exact Or.inl (List.mem_toFinset.mpr hp)
    · rw [if_neg hk] at h
      exact Or.inr (mem_allParents rest x p c h hp)

/-- The set of mentioned parents is no larger than the total parent count
used as fuel. -/
theorem card_allParents_le : ∀ commits : List (String × Commit),
    (allParents commits).card ≤ (commits.map fun kc => kc.2.parents.length).sum
  | [] => by simp [allParents]
  | kc :: rest => by
    simp only [allParents, List.foldr, List.map_cons, List.sum_cons]
    refine le_trans (Finset.card_union_le _ _) ?_
    have h1 : kc.2.parents.toFinset.card ≤ kc.2.parents.length :=
      kc.2.parents.toFinset_card_le
    have h2 := card_allParents_le rest
    simp only [allParents] at h2
    omega

/-- Loop measure of `ancestors_of`: unvisited pushable ids plus pending
stack entries.  Each loop iteration decreases it by exactly one. -/
def mu (commits : List (String × Commit)) (v : Finset String)
    (s : List String) : Nat :=
  ((allParents commits) \ v).card + s.length

/-- Pushing parents never removes visited ids. -/
theorem pushParents_visited_mono : ∀ (ps : List String) (v : Finset String)
    (s : List String), v ⊆ (pushParents v s ps).1
  | [], _, _ => Finset.Subset.refl _
  | p :: ps, v, s => by
    simp only [pushParents]
    by_cases hp : p ∈ v
    · rw [if_pos hp]; exact pushParents_visited_mono ps v s
    · rw [if_neg hp]
      exact (Finset.subset_insert p v).trans (pushParents_visited_mono ps _ _)

/-- Pushing parents never removes stack entries. -/
theorem pushParents_stack_mono : ∀ (ps : List String) (v : Finset String)
    (s : List String) (x : String), x ∈ s → x ∈ (pushParents v s ps).2
  | [], _, _, _, hx => hx
  | p :: ps, v, s, x, hx => by
    simp only [pushParents]
    by_cases hp : p ∈ v
    · rw [if_pos hp]; exact pushParents_stack_mono ps v s x hx
    · rw [if_neg hp]
      exact pushParents_stack_mono ps _ _ x (List.mem_cons_of_mem p hx)

/-- Everything visited after a push was visited before or is a pushed
parent. -/
theorem mem_pushParents_visited : ∀ (ps : List String) (v : Finset String)
    (s : List String) (x : String),
    x ∈ (pushParents v s ps).1 → x ∈ v ∨ x ∈ ps
  | [], _, _, _, hx => Or.inl hx
  | p :: ps, v, s, x, hx => by
    simp only [pushParents] at hx
    by_cases hp : p ∈ v
    · rw [if_pos hp] at hx
      rcases mem_pushParents_visited ps v s x hx with h | h
      · exact Or.inl h
      · exact Or.inr (List.mem_cons_of_mem p h)
    · rw [if_neg hp] at hx
      rcases mem_pushParents_visited ps _ _ x hx with h | h
      · rcases Finset.mem_insert.mp h with rfl | h
        · exact Or.inr (List.mem_cons_self x ps)
        · exact Or.inl h
      · exact Or.inr (List.mem_cons_of_mem p h)

/-- Everything on the stack after a push was on it before or is a pushed
parent. -/
theorem mem_pushParents_stack : ∀ (ps : List String) (v : Finset String)
    (s : List String) (x : String),
    x ∈ (pushParents v s ps).2 → x ∈ s ∨ x ∈ ps
  | [], _, _, _, hx => Or.inl hx
  | p :: ps, v, s, x, hx => by
    simp only [pushParents] at hx
    by_cases hp : p ∈ v
    · rw [if_pos hp] at hx
      rcases mem_pushParents_stack ps v s x hx with h | h
      · exact Or.inl h
      · exact Or.inr (List.mem_cons_of_mem p h)
    · rw [if_neg hp] at hx
      rcases mem_pushParents_stack ps _ _ x hx with h | h
      · rcases List.mem_cons.mp h with rfl | h
        · exact Or.inr (List.mem_cons_self x ps)
        · exact Or.inl h
      · exact Or.inr (List.mem_cons_of_mem p h)

/-- Every pushed parent ends up visited. -/
theorem mem_ps_pushParents : ∀ (ps : List String) (v : Finset String)
    (s : List String) (p : String), p ∈ ps → p ∈ (pushParents v s ps).1
  | [], _, _, _, hp => by simp at hp
  | q :: ps, v, s, p, hp => by
    simp only [pushParents]
    rcases List.mem_cons.mp hp with rfl | hp'
    · by_cases hq : p ∈ v
      · rw [if_pos hq]; exact pushParents_visited_mono ps v s hq
      · rw [if_neg hq]
        exact pushParents_visited_mono ps _ _ (Finset.mem_insert_self p v)
    · by_cases hq : q ∈ v
      · rw [if_pos hq]; exact mem_ps_pushParents ps v s p hp'
      · rw [if_neg hq]; exact mem_ps_pushParents ps _ _ p hp'

/-- Every id visited after a push was already visited or is on the
resulting stack (newly visited ids are exactly the newly pushed ones). -/
theorem pushParents_new_mem_stack : ∀ (ps : List String) (v : Finset String)
    (s : List String) (y : String),
    y ∈ (pushParents v s ps).1 → y ∈ v ∨ y ∈ (pushParents v s ps).2
  | [], _, _, _, hy => Or.inl hy
  | p :: ps, v, s, y, hy => by
    simp only [pushParents] at hy ⊢
    by_cases hp : p ∈ v
    · rw [if_pos hp] at hy ⊢
      exact pushParents_new_mem_stack ps v s y hy
    · rw [if_neg hp] at hy ⊢
      rcases pushParents_new_mem_stack ps _ _ y hy with h | h
      · rcases Finset.mem_insert.mp h with rfl | h
        · exact Or.inr (pushParents_stack_mono ps _ _ y (List.mem_cons_self y s))
        · exact Or.inl h
      · exact Or.inr h

/-- Pushing parents that are all mentioned in `allParents` keeps the loop
measure unchanged (each new parent trades one unvisited id for one stack
entry). -/
theorem pushParents_mu (commits : List (String × Commit)) :
    ∀ (ps : List String) (v : Finset String) (s : List String),
    (∀ p ∈ ps, p ∈ allParents commits) →
    mu commits (pushParents v s ps).1 (pushParents v s ps).2 = mu commits v s
  | [], _, _, _ => rfl
  | p :: ps, v, s, h => by
    simp only [pushParents]
    by_cases hp : p ∈ v
    · rw [if_pos hp]
      exact pushParents_mu commits ps v s fun q hq => h q (List.mem_cons_of_mem p hq)
    · rw [if_neg hp]
      rw [pushParents_mu commits ps _ _ fun q hq => h q (List.mem_cons_of_mem p hq)]
      have hpall : p ∈ allParents commits := h p (List.mem_cons_self p ps)
      have hmem : p ∈ allParents commits \ v := Finset.mem_sdiff.mpr ⟨hpall, hp⟩
      have hsd : allParents commits \ insert p v = (allParents commits \ v).erase p := by
        ext x
        simp only [Finset.mem_sdiff, Finset.mem_erase, Finset.mem_insert]
        tauto
      unfold mu
      rw [hsd, Finset.card_erase_of_mem hmem]
      have hcard : 0 < (allParents commits \ v).card := Finset.card_pos.mpr ⟨p, hmem⟩
      simp only [List.length_cons]
      omega

/-- The fuel `fuelOf` covers the initial loop measure. -/
theorem mu_init_le_fuelOf (commits : List (String × Commit)) (id : String) :
    mu commits ∅ [id] ≤ fuelOf commits := by
  unfold mu fuelOf
  rw [Finset.sdiff_empty]
  have := card_allParents_le commits
  simp only [List.length_cons, List.length_nil]
  omega

/-- With enough fuel the traversal can only return a visited set or raise
the `KeyError` of a dangling parent id: the fuel never runs out, i.e. the
Python loop never diverges. -/
theorem ancLoop_ok_or_keyError (commits : List (String × Commit)) :
    ∀ (fuel : Nat) (v : Finset String) (s : List String),
    mu commits v s ≤ fuel →
    (∃ r, ancLoop commits fuel v s = .ok r) ∨
      ancLoop commits fuel v s = .error .keyError
  | fuel, v, [], _ => Or.inl ⟨v, by cases fuel <;> rfl⟩
  | 0, _, _ :: s, h => by
    exfalso
    unfold mu at h
    simp only [List.length_cons] at h
    omega
  | fuel + 1, v, cur :: rest, h => by
    simp only [ancLoop]
    cases hc : dgetD commits cur with
    | none => exact Or.inr rfl
    | some c =>
      have hps : ∀ p ∈ c.parents, p ∈ allParents commits :=
        fun p hp => mem_allParents commits cur p c hc hp
      have hmu : mu commits (pushParents v rest c.parents).1
          (pushParents v rest c.parents).2 ≤ fuel := by
        rw [pushParents_mu commits c.parents v rest hps]
        unfold mu at h ⊢
        simp only [List.length_cons] at h
        omega
      exact ancLoop_ok_or_keyError commits fuel _ _ hmu

/-- Every parent reference in the commit dict resolves: the well-formedness
that `append` maintains. -/
def ParentsClosed (commits : List (String × Commit)) : Prop :=
  ∀ k c, dgetD commits k = some c → ∀ p ∈ c.parents,
    (dgetD commits p).isSome

/-- On a parent-closed store the traversal, started on known ids, returns a
visited set. -/
theorem ancLoop_ok_of_closed (commits : List (String × Commit))
    (hcl : ParentsClosed commits) :
    ∀ (fuel : Nat) (v : Finset String) (s : List String),
    (∀ x ∈ s, (dgetD commits x).isSome) → mu commits v s ≤ fuel →
    ∃ r, ancLoop commits fuel v s = .ok r
  | fuel, v, [], _, _ => ⟨v, by cases fuel <;> rfl⟩
  | 0, _, _ :: s, _, h => by
    exfalso
    unfold mu at h
    simp only [List.length_cons] at h
    omega
  | fuel + 1, v, cur :: rest, hs, h => by
    simp only [ancLoop]
    cases hc : dgetD commits cur with
    | none =>
      exfalso
      have := hs cur (List.mem_cons_self cur rest)
      rw [hc] at this
      simp at this
    | some c =>
      have hps : ∀ p ∈ c.parents, p ∈ allParents commits :=
        fun p hp => mem_allParents commits cur p c hc hp
      have hmu : mu commits (pushParents v rest c.parents).1
          (pushParents v rest c.parents).2 ≤ fuel := by
        rw [pushParents_mu commits c.parents v rest hps]
        unfold mu at h ⊢
        simp only [List.length_cons] at h
        omega
      have hs' : ∀ x ∈ (pushParents v rest c.parents).2,
          (dgetD commits x).isSome := by
        intro x hx
        rcases mem_pushParents_stack c.parents v rest x hx with hx' | hx'
        · exact hs x (List.mem_cons_of_mem cur hx')
        · exact hcl cur c hc x hx'
      exact ancLoop_ok_of_closed commits hcl fuel _ _ hs' hmu

/-- Soundness of the traversal: with the invariant that everything visited
is an ancestor of `root` and everything stacked is `root` or an ancestor,
the final visited set contains only ancestors of `root`. -/
theorem ancLoop_sound (commits : List (String × Commit)) (root : String) :
    ∀ (fuel : Nat) (v : Finset String) (s : List String)
    (r : Finset String),
    ancLoop commits fuel v s = .ok r →
    (∀ y ∈ v, Ances commits root y) →
    (∀ x ∈ s, x = root ∨ Ances commits root x) →
    ∀ y ∈ r, Ances commits root y
  | fuel, v, [], r, hr, hv, _ => by
    have hvr : (Except.ok v : Except Err (Finset String)) = .ok r := by
      rw [← hr]; cases fuel <;> rfl
    obtain rfl : v = r := by injection hvr
    exact hv
  | 0, _, _ :: _, _, hr, _, _ => by simp [ancLoop] at hr
  | fuel + 1, v, cur :: rest, r, hr, hv, hs => by
    simp only [ancLoop] at hr
    cases hc : dgetD commits cur with
    | none => rw [hc] at hr; simp at hr
    | some c =>
      rw [hc] at hr
      have hcur : ∀ p ∈ c.parents, Ances commits root p := by
        intro p hp
        rcases hs cur (List.mem_cons_self cur rest) with rfl | hanc
        · exact Relation.TransGen.single ⟨c, hc, hp⟩
        · exact hanc.tail ⟨c, hc, hp⟩
      have hv' : ∀ y ∈ (pushParents v rest c.parents).1,
          Ances commits root y := by
        intro y hy
        rcases mem_pushParents_visited c.parents v rest y hy with h' | h'
        · exact hv y h'
        · exact hcur y h'
      have hs' : ∀ x ∈ (pushParents v rest c.parents).2,
          x = root ∨ Ances commits root x := by
        intro x hx
        rcases mem_pushParents_stack c.parents v rest x hx with h' | h'
        · exact hs x (List.mem_cons_of_mem cur h')
        · exact Or.inr (hcur x h')
      exact ancLoop_sound commits root fuel _ _ r hr hv' hs'

/-- Completeness skeleton of the traversal: under the invariant that every
visited id is still pending on the stack or already has all its parents
visited, the final visited set is closed under parent edges, contains
everything visited so far, and contains the parents of everything that was
pending. -/
theorem ancLoop_closed (commits : List (String × Commit)) :
    ∀ (fuel : Nat) (v : Finset String) (s : List String)
    (r : Finset String),
    ancLoop commits fuel v s = .ok r →
    (∀ y ∈ v, y ∈ s ∨ ∀ p, ParentOf commits y p → p ∈ v) →
    v ⊆ r ∧ (∀ x ∈ s, ∀ p, ParentOf commits x p → p ∈ r) ∧
      (∀ y ∈ r, ∀ p, ParentOf commits y p → p ∈ r)
  | fuel, v, [], r, hr, hinv => by
    have hvr : (Except.ok v : Except Err (Finset String)) = .ok r := by
      rw [← hr]; cases fuel <;> rfl
    obtain rfl : v = r := by injection hvr
    refine ⟨Finset.Subset.refl _, by simp, ?_⟩
    intro y hy p hp
    rcases hinv y hy with h | h
    · simp at h
    · exact h p hp
  | 0, _, _ :: _, _, hr, _ => by simp [ancLoop] at hr
  | fuel + 1, v, cur :: rest, r, hr, hinv => by
    simp only [ancLoop] at hr
    cases hc : dgetD commits cur with
    | none => rw [hc] at hr; simp at hr
    | some c =>
      rw [hc] at hr
      have hparents : ∀ p, ParentOf commits cur p →
          p ∈ (pushParents v rest c.parents).1 := by
        intro p hp
        obtain ⟨c', hc', hpmem⟩ := hp
        rw [hc] at hc'
        obtain rfl : c = c' := by injection hc'
        exact mem_ps_pushParents c.parents v rest p hpmem
      have hinv' : ∀ y ∈ (pushParents v rest c.parents).1,
          y ∈ (pushParents v rest c.parents).2 ∨
            ∀ p, ParentOf commits y p →
              p ∈ (pushParents v rest c.parents).1 := by
        intro y hy
        by_cases hyv : y ∈ v
        · rcases hinv y hyv with hstk | hcl
          · rcases List.mem_cons.mp hstk with rfl | hrest
            · exact Or.inr hparents
            · exact Or.inl (pushParents_stack_mono c.parents v rest y hrest)
          · refine Or.inr fun p hp => ?_
            exact pushParents_visited_mono c.parents v rest (hcl p hp)
        · rcases pushParents_new_mem_stack c.parents v rest y hy with h | h
          · exact absurd h hyv
          · exact Or.inl h
      obtain ⟨hsub, hstk, hclr⟩ :=
        ancLoop_closed commits fuel _ _ r hr hinv'
      refine ⟨(pushParents_visited_mono c.parents v rest).trans hsub, ?_, hclr⟩
      intro x hx p hp
      rcases List.mem_cons.mp hx with rfl | hrest
      · exact hsub (hparents p hp)
      · exact hstk x (pushParents_stack_mono c.parents v rest x hrest) p hp

/-- Characterization of `ancestors_of` on a known id: the traversal
succeeds or raises `KeyError`, and whenever it succeeds the result is
exactly the set of proper ancestors of the id. -/
theorem ancestors_of_spec (st : LineageStore) (id : String)
    (hid : (dgetD st.commits id).isSome) (r : Finset String)
    (hr : st.ancestors_of id = .ok r) :
    ∀ x, x ∈ r ↔ Ances st.commits id x := by
  unfold LineageStore.ancestors_of at hr
  rw [if_pos hid] at hr
  intro x
  constructor
  · intro hx
    refine ancLoop_sound st.commits id _ _ _ r hr (by simp) ?_ x hx
    intro y hy
    rcases List.mem_cons.mp hy with rfl | h
    · exact Or.inl rfl
    · simp at h
  · intro hx
    obtain ⟨-, hstk, hclr⟩ :=
      ancLoop_closed st.commits _ _ _ r hr (by simp)
    induction hx with
    | single hp => exact hstk id (List.mem_cons_self id []) _ hp
    | tail hab hbc ih => exact hclr _ ih _ hbc

/-- Reading back the key just written. -/
theorem dgetD_dset_self {α : Type} : ∀ (m : List (String × α)) (k : String)
    (v : α), dgetD (dset m k v) k = some v
  | [], k, v => by simp [dset, dgetD]
  | (k', v') :: rest, k, v => by
    simp only [dset]
    by_cases h : k' = k
    · rw [if_pos h]; simp [dgetD]
    · rw [if_neg h]; simp only [dgetD, if_neg h]
      exact dgetD_dset_self rest k v

/-- Writing one key does not disturb reads of any other key. -/
theorem dgetD_dset_ne {α : Type} : ∀ (m : List (String × α)) (k q : String)
    (v : α), q ≠ k → dgetD (dset m k v) q = dgetD m q
  | [], k, q, v, h => by
    simp only [dset, dgetD]
    rw [if_neg fun hh => h hh.symm]
  | (k', v') :: rest, k, q, v, h => by
    simp only [dset]
    by_cases hk : k' = k
    · rw [if_pos hk]
      simp only [dgetD]
      rw [if_neg (fun hh => h hh.symm), if_neg (hk ▸ fun hh => h hh.symm)]
    · rw [if_neg hk]
      simp only [dgetD]
      by_cases hq : k' = q
      · rw [if_pos hq, if_pos hq]
      · rw [if_neg hq, if_neg hq]
        exact dgetD_dset_ne rest k q v h

/-- Ancestor steps strictly decrease any rank that witnesses the parent
edges. -/
def Ranked (commits : List (String × Commit)) (rank : String → Nat) : Prop :=
  ∀ k c, dgetD commits k = some c → ∀ p ∈ c.parents,
    (dgetD commits p).isSome ∧ rank p < rank k

/-- A ranked commit dict is parent-closed. -/
theorem Ranked.parentsClosed {commits : List (String × Commit)}
    {rank : String → Nat} (h : Ranked commits rank) : ParentsClosed commits :=
  fun k c hc p hp => (h k c hc p hp).1

/-- Proper ancestry strictly decreases the rank. -/
theorem ances_rank_lt {commits : List (String × Commit)}
    {rank : String → Nat} (h : Ranked commits rank) {a b : String}
    (hab : Ances commits a b) : rank b < rank a := by
  induction hab with
  | single hp =>
    obtain ⟨c, hc, hm⟩ := hp
    exact (h _ c hc _ hm).2
  | tail _ hbc ih =>
    obtain ⟨c, hc, hm⟩ := hbc
    exact Nat.lt_trans (h _ c hc _ hm).2 ih

/-- A successful `ancestors_of` presupposes a known id. -/
theorem ancestors_of_ok_isSome {st : LineageStore} {id : String}
    {r : Finset String} (hr : st.ancestors_of id = .ok r) :
    (dgetD st.commits id).isSome := by
  unfold LineageStore.ancestors_of at hr
  by_cases h : (dgetD st.commits id).isSome
  · exact h
  · rw [if_neg h] at hr
    simp at hr

/-- On a parent-closed store, `ancestors_of` of a known id returns a
visited set. -/
theorem ancestors_of_total (st : LineageStore)
    (hcl : ParentsClosed st.commits) (id : String)
    (hid : (dgetD st.commits id).isSome) :
    ∃ r, st.ancestors_of id = .ok r := by
  unfold LineageStore.ancestors_of
  rw [if_pos hid]
  refine ancLoop_ok_of_closed st.commits hcl _ ∅ [id] ?_
    (mu_init_le_fuelOf st.commits id)
  intro x hx
  rcases List.mem_cons.mp hx with rfl | h
  · exact hid
  · simp at h

/-- Inversion of a successful `append`: the parent check passed, the commit
is the record built from the arguments, and the two dicts are updated as in
the source. -/
theorem append_ok_inversion (st : LineageStore) (newId : String) (ts : Int)
    (parents : List String) (op sid sk sns ssc : String)
    (payload : List (String × Val)) (note : String) (c : Commit)
    (st' : LineageStore)
    (h : st.append newId ts parents op sid sk sns ssc payload note =
      (.ok c, st')) :
    (∀ p ∈ parents, (dgetD st.commits p).isSome) ∧
    c = ⟨newId, ts, parents, op, sid, sk, sns, ssc, payload, note⟩ ∧
    st'.commits = dset st.commits newId c ∧
    st'.children = dsetdefault
      (parents.foldl (fun ch p => addChild ch p newId) st.children)
      newId ∅ := by
  unfold LineageStore.append at h
  by_cases hall : parents.all fun p => (dgetD st.commits p).isSome
  · rw [if_pos hall] at h
    injection h with h1 h2
    obtain rfl : (⟨newId, ts, parents, op, sid, sk, sns, ssc,
        payload, note⟩ : Commit) = c := by injection h1
    refine ⟨fun p hp => List.all_eq_true.mp hall p hp, rfl, ?_, ?_⟩
    · rw [← h2]
    · rw [← h2]
  · rw [if_neg hall] at h
    injection h with h1 _
    exact absurd h1 (by simp)

/-- Stores reachable from a fresh `LineageStore()` by successful `append`
calls whose generated uuid id was fresh (uuid4 collisions are assumed away,
as the source does). -/
inductive Reachable : LineageStore → Prop
  | empty : Reachable LineageStore.empty
  | step {st : LineageStore} {newId : String} {ts : Int}
      {parents : List String} {op sid sk sns ssc : String}
      {payload : List (String × Val)} {note : String} {c : Commit}
      {st' : LineageStore} :
      Reachable st →
      dgetD st.commits newId = none →
      st.append newId ts parents op sid sk sns ssc payload note =
        (.ok c, st') →
      Reachable st'

/-- Every reachable store is ranked: each append gives the new commit a
rank above everything already stored, so parent edges always point
downward. -/
theorem reachable_ranked {st : LineageStore} (h : Reachable st) :
    ∃ (rank : String → Nat) (B : Nat), Ranked st.commits rank ∧
      ∀ k, (dgetD st.commits k).isSome → rank k < B := by
  induction h with
  | empty =>
    refine ⟨fun _ => 0, 1, ?_, ?_⟩
    · intro k c hc
      simp [LineageStore.empty, dgetD] at hc
    · intro k hk
      simp [LineageStore.empty, dgetD] at hk
  | @step st newId ts parents op sid sk sns ssc payload note c st'
      hreach hfresh happ ih =>
    obtain ⟨rank, B, hrank, hbound⟩ := ih
    obtain ⟨hall, hc, hcommits, -⟩ :=
      append_ok_inversion st newId ts parents op sid sk sns ssc payload
        note c st' happ
    refine ⟨fun x => if x = newId then B else rank x, B + 1, ?_, ?_⟩
    · intro k ck hk p hp
      rw [hcommits] at hk
      by_cases hkN : k = newId
      · rw [hkN, dgetD_dset_self] at hk
        obtain rfl : c = ck := by injection hk
        rw [hc] at hp
        have hpS : (dgetD st.commits p).isSome := hall p hp
        have hpne : p ≠ newId := by
          intro hpk
          rw [hpk, hfresh] at hpS
          simp at hpS
        refine ⟨?_, ?_⟩
        · rw [hcommits, dgetD_dset_ne st.commits newId p c hpne]
          exact hpS
        · show (if p = newId then B else rank p) <
            (if k = newId then B else rank k)
          rw [if_neg hpne, if_pos hkN]
          exact hbound p hpS
      · rw [dgetD_dset_ne st.commits newId k c hkN] at hk
        obtain ⟨hpS, hlt⟩ := hrank k ck hk p hp
        have hpne : p ≠ newId := by
          intro hpk
          rw [hpk, hfresh] at hpS
          simp at hpS
        refine ⟨?_, ?_⟩
        · rw [hcommits, dgetD_dset_ne st.commits newId p c hpne]
          exact hpS
        · show (if p = newId then B else rank p) <
            (if k = newId then B else rank k)
          rw [if_neg hpne, if_neg hkN]
          exact hlt
    · intro k hk
      rw [hcommits] at hk
      by_cases hkN : k = newId
      · show (if k = newId then B else rank k) < B + 1
        rw [if_pos hkN]
        omega
      · show (if k = newId then B else rank k) < B + 1
        rw [if_neg hkN]
        rw [dgetD_dset_ne st.commits newId k c hkN] at hk
        have := hbound k hk
        omega

/-- Translation of `_semantic_free_payload_change` (`merge_engine.py`): the
canonical string of the commit payload, or the `"<opaque-payload>"` marker
when the payload cannot be canonicalized. -/
def _semantic_free_payload_change (c : Commit) : String :=
  match canonicalize_payload (.map c.payload) with
  | some s => s
  | none => "<opaque-payload>"

/-- Translation of `_index_latest_by_subject`: last commit per subject id,
in chain order. -/
def _index_latest_by_subject (commits : List Commit) :
    List (String × Commit) :=
  commits.foldl (fun out c => dset out c.subject_id c) []

/-- The `while True` walk of `_commit_chain`, producing the chain from head
backwards (the source then reverses it).  `store.get` raises `LineageError`
on a missing id; the walk stops after appending any commit whose parent
count differs from one.  Fuel exhaustion (`nonTermination`) marks the
divergence a cyclic commit dict would cause. -/
def chainLoop (store : LineageStore) : Nat → String → Except Err (List Commit)
  | 0, _ => .error .nonTermination
  | fuel + 1, cur =>
    match dgetD store.commits cur with
    | none => .error .lineageError
    | some c =>
      match c.parents with
      | [p] => (chainLoop store fuel p).map (fun rest => c :: rest)
      | _ => .ok [c]

/-- Translation of `_commit_chain`: walk single-parent links from the head,
then reverse into oldest-first order. -/
def _commit_chain (store : LineageStore) (head : String) :
    Except Err (List Commit) :=
  (chainLoop store (store.commits.length + 1) head).map List.reverse

/-- Python tuple comparison `(timestamp, commit_id) > (timestamp, commit_id)`
used by `_pick_base`: strictly greater timestamp, or equal timestamp and
strictly greater id. -/
def tsKeyGt (a b : Int × String) : Bool :=
  if b.1 < a.1 then true
  else if a.1 < b.1 then false
  else !(strLeB a.2.data b.2.data)

/-- The two-candidate step of the `_pick_base` maximum: keep the strictly
greater `(timestamp, id)` key. -/
def km (a b : Int × String) : Int × String := if tsKeyGt a b then a else b

/-- Maximum step lifted to an optional accumulator (`best is None` before
the first candidate). -/
def keyMaxO : Option (Int × String) → Option (Int × String) →
    Option (Int × String)
  | none, y => y
  | some a, none => some a
  | some a, some b => some (km a b)

theorem tsKeyGt_asymm {a b : Int × String} (h : tsKeyGt a b = true) :
    tsKeyGt b a = false := by
  unfold tsKeyGt at h ⊢
  rcases Int.lt_trichotomy a.1 b.1 with hi | hi | hi
  · rw [if_neg (by omega), if_pos hi] at h
    simp at h
  · rw [if_neg (by omega), if_neg (by omega)] at h
    rw [if_neg (by omega), if_neg (by omega)]
    rcases strLeB_total a.2.data b.2.data with ht | ht
    · rw [ht] at h
      simp at h
    · rw [ht]
      rfl
  · rw [if_neg (by omega), if_pos hi]

theorem tsKeyGt_trans {a b c : Int × String} (h₁ : tsKeyGt a b = true)
    (h₂ : tsKeyGt b c = true) : tsKeyGt a c = true := by
  unfold tsKeyGt at h₁ h₂ ⊢
  rcases Int.lt_trichotomy a.1 b.1 with hi | hi | hi
  · rw [if_neg (by omega), if_pos hi] at h₁
    simp at h₁
  · rcases Int.lt_trichotomy b.1 c.1 with hj | hj | hj
    · rw [if_neg (by omega), if_pos hj] at h₂
      simp at h₂
    · rw [if_neg (by omega), if_neg (by omega)] at h₁
      rw [if_neg (by omega), if_neg (by omega)] at h₂
      rw [if_neg (by omega), if_neg (by omega)]
      cases hac : strLeB a.2.data c.2.data with
      | false => rfl
      | true =>
        exfalso
        have hab : strLeB a.2.data b.2.data = false := by
          cases hx : strLeB a.2.data b.2.data with
          | false => rfl
          | true => rw [hx] at h₁; exact absurd h₁ (by simp)
        have hbc : strLeB b.2.data c.2.data = false := by
          cases hx : strLeB b.2.data c.2.data with
          | false => rfl
          | true => rw [hx] at h₂; exact absurd h₂ (by simp)
        have hba : strLeB b.2.data a.2.data = true := by
          rcases strLeB_total a.2.data b.2.data with ht | ht
          · rw [ht] at hab
            exact absurd hab (by simp)
          · exact ht
        have hle := strLeB_trans b.2.data a.2.data c.2.data hba hac
        rw [hle] at hbc
        exact absurd hbc (by simp)
    · rw [if_pos (by omega)]
  · rcases Int.lt_trichotomy b.1 c.1 with hj | hj | hj
    · rw [if_neg (by omega), if_pos hj] at h₂
      simp at h₂
    · rw [if_pos (by omega)]
    · rw [if_pos (by omega)]

theorem tsKeyGt_conn {a b : Int × String} (h₁ : tsKeyGt a b = false)
    (h₂ : tsKeyGt b a = false) : a = b := by
  unfold tsKeyGt at h₁ h₂
  rcases Int.lt_trichotomy a.1 b.1 with hi | hi | hi
  · rw [if_pos hi] at h₂
    exact absurd h₂ (by simp)
  · rw [if_neg (by omega), if_neg (by omega)] at h₁
    rw [if_neg (by omega), if_neg (by omega)] at h₂
    have hab : strLeB a.2.data b.2.data = true := by
      cases hx : strLeB a.2.data b.2.data with
      | true => rfl
      | false => rw [hx] at h₁; exact absurd h₁ (by simp)
    have hba : strLeB b.2.data a.2.data = true := by
      cases hx : strLeB b.2.data a.2.data with
      | true => rfl
      | false => rw [hx] at h₂; exact absurd h₂ (by simp)
    have hdata : a.2.data = b.2.data := strLeB_antisymm _ _ hab hba
    have hs : a.2 = b.2 := by
      have := congrArg String.mk hdata
      simpa using this
    exact Prod.ext hi hs
  · rw [if_pos hi] at h₁
    exact absurd h₁ (by simp)

theorem notGt_trans {a b c : Int × String} (h₁ : tsKeyGt a b = false)
    (h₂ : tsKeyGt b c = false) : tsKeyGt a c = false := by
  cases hac : tsKeyGt a c with
  | false => rfl
  | true =>
    exfalso
    cases hcb : tsKeyGt c b with
    | false =>
      obtain rfl : c = b := tsKeyGt_conn hcb h₂
      rw [hac] at h₁
      exact absurd h₁ (by simp)
    | true =>
      have := tsKeyGt_trans hac hcb
      rw [this] at h₁
      exact absurd h₁ (by simp)

theorem km_comm (a b : Int × String) : km a b = km b a := by
  unfold km
  cases hab : tsKeyGt a b with
  | true => simp [tsKeyGt_asymm hab]
  | false =>
    cases hba : tsKeyGt b a with
    | true => simp [hba]
    | false => simp [hba, tsKeyGt_conn hab hba]

theorem km_assoc (a b c : Int × String) : km (km a b) c = km a (km b c) := by
  unfold km
  cases hab : tsKeyGt a b with
  | true =>
    cases hbc : tsKeyGt b c with
    | true => simp [hab, tsKeyGt_trans hab hbc]
    | false => simp
  | false =>
    cases hbc : tsKeyGt b c with
    | true => simp [hab, hbc]
    | false => simp [hbc, notGt_trans hab hbc]

instance : Std.Commutative keyMaxO :=
  ⟨fun a b => by
    cases a with
    | none => cases b <;> rfl
    | some x =>
      cases b with
      | none => rfl
      | some y => exact congrArg some (km_comm x y)⟩

instance : Std.Associative keyMaxO :=
  ⟨fun a b c => by
    cases a with
    | none => rfl
    | some x =>
      cases b with
      | none => rfl
      | some y =>
        cases c with
        | none => rfl
        | some z => exact congrArg some (km_assoc x y z)⟩

/-- Translation of `_pick_base`: among the LCA candidates pick the one with
the strictly greatest `(timestamp_ms, commit_id)` key, or `None` when there
are no candidates.  Python iterates the candidate set in
interpreter-defined order, fetching each candidate through `store.get`
(which raises `LineageError` on a missing id) and keeping the strictly
greater key; since the keys are pairwise distinct, that selects the unique
maximum whatever the order, modelled here by an order-insensitive
(commutative-associative) fold over the candidate set, with the `get`
failure surfaced up front. -/
def _pick_base (store : LineageStore) (left right : String) :
    Except Err (Option String) := do
  let cands ← store.lca_candidates left right
  if ∀ cid ∈ cands, (dgetD store.commits cid).isSome then
    pure ((Multiset.fold keyMaxO none
      (cands.1.map fun cid =>
        some ((match dgetD store.commits cid with
               | some c => c.timestamp_ms
               | none => 0), cid))).map Prod.snd)
  else .error .lineageError

/-- One action dict of the merge analysis.  The source emits only the keys
relevant to each proposal; an absent key is `none` here. -/
structure MergeAction where
  subject_id : String
  proposal : String
  reason : String
  left_commit : Option String
  right_commit : Option String
  base_commit : Option String
deriving DecidableEq

/-- One conflict dict of the merge analysis. -/
structure MergeConflict where
  subject_id : String
  conflict : String
  reason : String
  base_commit : Option String
  left_commit : String
  right_commit : String
  left_payload_sig : String
  right_payload_sig : String
deriving DecidableEq

/-- Translation of the `MergeDecision` dataclass. -/
structure MergeDecision where
  base_commit : Option String
  left_commit : String
  right_commit : String
  actions : List MergeAction
  conflicts : List MergeConflict
  note : String
deriving DecidableEq

/-- The fixed note of every analysis decision. -/
def mergeNote : String :=
  "This is a structural merge analysis (no semantic resolution). " ++
  "Conflicts must be resolved by explicit revision decisions."

/-- The per-subject classification step of `three_way_merge_analysis`,
given the latest left/right/base commits for the subject.
`none` is the `assert l and r` failure: a subject present in neither
branch view (it can only come from the base view). -/
def classifySubject (sid : String) (l r b : Option Commit) :
    Option (MergeAction ⊕ MergeConflict) :=
  match l, r with
  | some lc, none =>
    some (.inl ⟨sid, "accept_left", "subject appears only on left branch",
      some lc.commit_id, none, none⟩)
  | none, some rc =>
    some (.inl ⟨sid, "accept_right", "subject appears only on right branch",
      none, some rc.commit_id, none⟩)
  | none, none => none
  | some lc, some rc =>
    let l_sig := _semantic_free_payload_change lc
    let r_sig := _semantic_free_payload_change rc
    if l_sig = r_sig then
      some (.inl ⟨sid, "accept_either",
        "structurally equivalent payload changes",
        some lc.commit_id, some rc.commit_id, none⟩)
    else
      match b with
      | some bc =>
        let b_sig := _semantic_free_payload_change bc
        if l_sig = b_sig ∧ r_sig ≠ b_sig then
          some (.inl ⟨sid, "accept_right", "left matches base; right diverges",
            none, some rc.commit_id, some bc.commit_id⟩)
        else if r_sig = b_sig ∧ l_sig ≠ b_sig then
          some (.inl ⟨sid, "accept_left", "right matches base; left diverges",
            some lc.commit_id, none, some bc.commit_id⟩)
        else
          some (.inr ⟨sid, "divergent_updates",
            "both branches diverged for same subject_id; requires explicit merge policy",
            some bc.commit_id, lc.commit_id, rc.commit_id, l_sig, r_sig⟩)
      | none =>
        some (.inr ⟨sid, "divergent_updates",
          "both branches diverged for same subject_id; requires explicit merge policy",
          none, lc.commit_id, rc.commit_id, l_sig, r_sig⟩)

/-- The `for sid in sorted(all_subjects)` loop: one classification per
subject, actions and conflicts collected in subject order; a failing
`assert` aborts the whole analysis with `AssertionError`. -/
def classifyLoop (left_latest right_latest base_latest :
    List (String × Commit)) :
    List String → Except Err (List MergeAction × List MergeConflict)
  | [] => .ok ([], [])
  | sid :: rest =>
    match classifySubject sid (dgetD left_latest sid) (dgetD right_latest sid)
        (dgetD base_latest sid) with
    | none => .error .assertionError
    | some (.inl a) =>
      (classifyLoop left_latest right_latest base_latest rest).map
        fun p => (a :: p.1, p.2)
    | some (.inr cf) =>
      (classifyLoop left_latest right_latest base_latest rest).map
        fun p => (p.1, cf :: p.2)

/-- Keys of a dict, as a set. -/
def keysFinset {α : Type} (m : List (String × α)) : Finset String :=
  (m.map Prod.fst).toFinset

/-- Python truthiness of an optional string (`if base:`): `None` and the
empty string are falsy. -/
def optTruthy (b : Option String) : Option String :=
  match b with
  | some s => if s = "" then none else some s
  | none => none

/-- The `base_latest = _index_latest_by_subject(_commit_chain(store, base))
if base else {}` step of the analysis. -/
def baseLatestOf (store : LineageStore) (base : Option String) :
    Except Err (List (String × Commit)) :=
  match optTruthy base with
  | some b => (_commit_chain store b).map _index_latest_by_subject
  | none => pure []

/-- The `sorted(all_subjects)` subject enumeration of the analysis:
`all_subjects` is the union of the three views' key sets, iterated in
ascending order — modelled as deduplication of the concatenated key lists
followed by an ascending sort, which enumerates exactly that set in
exactly that order. -/
def analysisSubjects (vl vr vb : List (String × Commit)) : List String :=
  ((vl.map Prod.fst ++ vr.map Prod.fst ++ vb.map Prod.fst).dedup).insertionSort strLe

/-- Translation of `three_way_merge_analysis` (`merge_engine.py`): check
both heads exist, pick a base, build the two single-parent chain views and
the base view, and classify every subject of the union in sorted order.
(The source also fetches `store.get(base)` into an unused local
`base_commit`; with the base drawn from the LCA candidates that lookup
cannot fail, and the embedding omits the dead local.) -/
def three_way_merge_analysis (store : LineageStore)
    (left_head right_head : String) : Except Err MergeDecision :=
  if (dgetD store.commits left_head).isSome ∧
      (dgetD store.commits right_head).isSome then
    match _pick_base store left_head right_head with
    | .error e => .error e
    | .ok base =>
      match _commit_chain store left_head with
      | .error e => .error e
      | .ok left_chain =>
        match _commit_chain store right_head with
        | .error e => .error e
        | .ok right_chain =>
          let left_latest := _index_latest_by_subject left_chain
          let right_latest := _index_latest_by_subject right_chain
          match baseLatestOf store base with
          | .error e => .error e
          | .ok base_latest =>
            match classifyLoop left_latest right_latest base_latest
                (analysisSubjects left_latest right_latest base_latest) with
            | .error e => .error e
            | .ok acts =>
              .ok ⟨base, left_head, right_head, acts.1, acts.2, mergeNote⟩
  else .error .mergeError

/-- The `for subject_id, payload in merged_subject_payloads.items()` loop
of `commit_merge`: recompute the anchor from the resolved payload, append a
`merge` commit under the unchanged id or a `replace` commit under the new
id, both heads as parents.  `mkId`/`mkTs` supply the uuid and timestamp of
the i-th append.  An exception leaves the store with the commits already
appended, exactly like the Python original. -/
def commitMergeLoop (hash : String → String) (left right : String)
    (kind nspace scope note : String) (mkId : Nat → String)
    (mkTs : Nat → Int) :
    LineageStore → Nat → List (String × List (String × Val)) →
    Except Err (List Commit) × LineageStore
  | store, _, [] => (.ok [], store)
  | store, i, (subject_id, payload) :: rest =>
    match IdentityAnchor.create hash kind nspace payload scope "v1" with
    | .error e => (.error e, store)
    | .ok anchor =>
      let opSid : String × String :=
        if anchor.id = subject_id then ("merge", subject_id)
        else ("replace", anchor.id)
      match store.append (mkId i) (mkTs i) [left, right] opSid.1
          opSid.2 kind nspace scope payload note with
      | (.error e, st') => (.error e, st')
      | (.ok c, st') =>
        match commitMergeLoop hash left right kind nspace scope note mkId
            mkTs st' (i + 1) rest with
        | (.ok cs, st'') => (.ok (c :: cs), st'')
        | (.error e, st'') => (.error e, st'')

/-- Translation of `commit_merge` (`merge_engine.py`).  The `decision`
argument is accepted and, as in the source, never read.  Fails with
`MergeError` when either parent head is absent; otherwise appends one
commit per resolved subject payload. -/
def commit_merge (hash : String → String) (store : LineageStore)
    (parents : String × String) (decision : MergeDecision)
    (merged_subject_payloads : List (String × List (String × Val)))
    (kind nspace scope note : String) (mkId : Nat → String)
    (mkTs : Nat → Int) : Except Err (List Commit) × LineageStore :=
  if (dgetD store.commits parents.1).isSome ∧
      (dgetD store.commits parents.2).isSome then
    commitMergeLoop hash parents.1 parents.2 kind nspace scope note mkId mkTs
      store 0 merged_subject_payloads
  else (.error .mergeError, store)

/-- Strict-by-key order on rendered entries: used to show a sorted
Nodup-keyed entry list is unique among its permutations. -/
def keyLtNe (a b : String × String) : Prop := keyLe a b ∧ a.1 ≠ b.1

instance : IsAntisymm (String × String) keyLtNe :=
  ⟨fun a b h₁ h₂ =>
    (h₁.2 (antisymm (r := strLe) h₁.1 h₂.1)).elim⟩

/-- Sorting by key maps permuted Nodup-keyed entry lists to the same
list. -/
theorem sortEntries_eq_of_perm {l₁ l₂ : List (String × String)}
    (h : l₁.Perm l₂) (hnd : (l₁.map Prod.fst).Nodup) :
    sortEntries l₁ = sortEntries l₂ := by
  have hs₁ : List.Sorted keyLe (sortEntries l₁) :=
    List.sorted_insertionSort keyLe l₁
  have hs₂ : List.Sorted keyLe (sortEntries l₂) :=
    List.sorted_insertionSort keyLe l₂
  have hp : (sortEntries l₁).Perm (sortEntries l₂) :=
    ((List.perm_insertionSort keyLe l₁).trans h).trans
      (List.perm_insertionSort keyLe l₂).symm
  have hnd₁ : ((sortEntries l₁).map Prod.fst).Nodup :=
    (List.Perm.nodup_iff
      ((List.perm_insertionSort keyLe l₁).map Prod.fst)).mpr hnd
  have hnd₂ : ((sortEntries l₂).map Prod.fst).Nodup :=
    (List.Perm.nodup_iff (hp.map Prod.fst)).mp hnd₁
  have hlt₁ : List.Sorted keyLtNe (sortEntries l₁) :=
    (hs₁.and (List.pairwise_map.mp hnd₁)).imp fun hh => hh
  have hlt₂ : List.Sorted keyLtNe (sortEntries l₂) :=
    (hs₂.and (List.pairwise_map.mp hnd₂)).imp fun hh => hh
  exact List.eq_of_perm_of_sorted hp hlt₁ hlt₂

/-- The rendered entries are the entries with rendered values. -/
theorem dumpsEntries_eq_map : ∀ es : List (String × JVal),
    dumpsEntries es = es.map fun kv => (kv.1, dumps kv.2)
  | [] => rfl
  | (k, v) :: es => by
    simp only [dumpsEntries, List.map_cons]
    rw [dumpsEntries_eq_map es]

/-- Rendering a json object is insensitive to entry order when the keys
are distinct. -/
theorem dumps_obj_perm {l l' : List (String × JVal)} (h : l.Perm l')
    (hnd : (l.map Prod.fst).Nodup) : dumps (.obj l) = dumps (.obj l') := by
  simp only [dumps]
  have hperm : (dumpsEntries l).Perm (dumpsEntries l') := by
    rw [dumpsEntries_eq_map, dumpsEntries_eq_map]
    exact h.map _
  have hkeys : (dumpsEntries l).map Prod.fst = l.map Prod.fst := by
    rw [dumpsEntries_eq_map, List.map_map]
    rfl
  rw [sortEntries_eq_of_perm hperm (by rw [hkeys]; exact hnd)]

/-- Writing a fresh key appends the binding at the end. -/
theorem dset_append {α : Type} : ∀ (m : List (String × α)) (k : String)
    (v : α), k ∉ m.map Prod.fst → dset m k v = m ++ [(k, v)]
  | [], _, _, _ => rfl
  | (k', v') :: rest, k, v, h => by
    simp only [List.map_cons, List.mem_cons] at h
    push_neg at h
    simp only [dset]
    rw [if_neg fun he => h.1 he.symm]
    rw [dset_append rest k v h.2]
    simp

/-- Entrywise normalization of mapping entries, in order (no overwrite:
meaningful for Nodup-keyed entry lists, i.e. actual Python dicts). -/
def entriesNorm : List (String × Val) → Option (List (String × JVal))
  | [] => some []
  | kv :: rest =>
    match _normalize kv.2 with
    | none => none
    | some nv => (entriesNorm rest).map ((kv.1, nv) :: ·)

/-- On a Nodup-keyed entry list the `out` dict of `_normalize` is built by
pure appending, so it equals the entrywise normalization. -/
theorem normalize_into_spec : ∀ (es : List (String × Val))
    (out : List (String × JVal)), (es.map Prod.fst).Nodup →
    (∀ k, k ∈ out.map Prod.fst → k ∉ es.map Prod.fst) →
    _normalize_into out es = (entriesNorm es).map (out ++ ·)
  | [], out, _, _ => by simp [_normalize_into, entriesNorm]
  | (k, v) :: rest, out, hnd, hdis => by
    simp only [_normalize_into, entriesNorm]
    cases hnv : _normalize v with
    | none => rfl
    | some nv =>
      dsimp only
      have hk : k ∉ out.map Prod.fst := fun hmem => hdis k hmem (by simp)
      rw [dset_append out k nv hk]
      have hndr : (rest.map Prod.fst).Nodup := by
        simp only [List.map_cons, List.nodup_cons] at hnd
        exact hnd.2
      have hknr : k ∉ rest.map Prod.fst := by
        simp only [List.map_cons, List.nodup_cons] at hnd
        exact hnd.1
      rw [normalize_into_spec rest (out ++ [(k, nv)]) hndr ?_]
      · cases entriesNorm rest <;> simp
      · intro k' hk' hk'mem
        simp only [List.map_append, List.mem_append] at hk'
        rcases hk' with hmo | hml
        · exact hdis k' hmo (by simp [hk'mem])
        · simp only [List.map_cons, List.map_nil, List.mem_singleton] at hml
          subst hml
          exact hknr hk'mem

/-- The map branch of `_normalize` on a Python dict (Nodup keys) is
entrywise normalization. -/
theorem normalize_map_eq (es : List (String × Val))
    (hnd : (es.map Prod.fst).Nodup) :
    _normalize (.map es) = (entriesNorm es).map JVal.obj := by
  have hstep : _normalize (Val.map es) =
      (_normalize_into [] es).map JVal.obj := rfl
  rw [hstep, normalize_into_spec es [] hnd (by simp)]
  cases entriesNorm es <;> rfl

/-- Entrywise normalization keeps the keys. -/
theorem entriesNorm_keys : ∀ (es : List (String × Val))
    (l : List (String × JVal)), entriesNorm es = some l →
    l.map Prod.fst = es.map Prod.fst
  | [], l, h => by
    simp only [entriesNorm] at h
    obtain rfl : ([] : List (String × JVal)) = l := by injection h
    rfl
  | kv :: rest, l, h => by
    simp only [entriesNorm] at h
    cases hnv : _normalize kv.2 with
    | none => rw [hnv] at h; simp at h
    | some nv =>
      rw [hnv] at h
      cases hrest : entriesNorm rest with
      | none => rw [hrest] at h; simp at h
      | some lr =>
        rw [hrest] at h
        obtain rfl : (kv.1, nv) :: lr = l := by injection h
        simp only [List.map_cons]
        rw [entriesNorm_keys rest lr hrest]

/-- Entrywise normalization of permuted entry lists: both fail, or both
succeed with permuted results. -/
theorem entriesNorm_perm : ∀ {es es' : List (String × Val)}, es.Perm es' →
    (entriesNorm es = none ∧ entriesNorm es' = none) ∨
    ∃ l l', entriesNorm es = some l ∧ entriesNorm es' = some l' ∧ l.Perm l' := by
  intro es es' h
  induction h with
  | nil => exact Or.inr ⟨[], [], rfl, rfl, List.Perm.nil⟩
  | cons x _ ih =>
    simp only [entriesNorm]
    cases hx : _normalize x.2 with
    | none => exact Or.inl ⟨rfl, rfl⟩
    | some nv =>
      rcases ih with ⟨h1, h2⟩ | ⟨l, l', h1, h2, hp⟩
      · rw [h1, h2]
        exact Or.inl ⟨rfl, rfl⟩
      · rw [h1, h2]
        exact Or.inr ⟨_, _, rfl, rfl, hp.cons (x.1, nv)⟩
  | swap x y l =>
    simp only [entriesNorm]
    cases hx : _normalize x.2 with
    | none =>
      cases hy : _normalize y.2 with
      | none => exact Or.inl ⟨rfl, rfl⟩
      | some nvy =>
        cases hl : entriesNorm l <;> exact Or.inl ⟨rfl, rfl⟩
    | some nvx =>
      cases hy : _normalize y.2 with
      | none => exact Or.inl ⟨rfl, rfl⟩
      | some nvy =>
        cases hl : entriesNorm l with
        | none => exact Or.inl ⟨rfl, rfl⟩
        | some lr =>
          exact Or.inr ⟨_, _, rfl, rfl, List.Perm.swap (x.1, nvx) (y.1, nvy) lr⟩
  | trans _ _ ih₁ ih₂ =>
    rcases ih₁ with ⟨h1, h2⟩ | ⟨l, l', h1, h2, hp⟩
    · rcases ih₂ with ⟨h3, h4⟩ | ⟨m, m', h3, h4, hq⟩
      · exact Or.inl ⟨h1, h4⟩
      · rw [h2] at h3
        simp at h3
    · rcases ih₂ with ⟨h3, h4⟩ | ⟨m, m', h3, h4, hq⟩
      · rw [h2] at h3
        simp at h3
      · rw [h2] at h3
        obtain rfl : l' = m := by injection h3
        exact Or.inr ⟨l, m', h1, h4, hp.trans hq⟩

/-- Canonical encoding of Python dicts is insensitive to entry order. -/
theorem canonicalize_map_perm {es es' : List (String × Val)}
    (h : es.Perm es') (hnd : (es.map Prod.fst).Nodup) :
    canonicalize_payload (.map es) = canonicalize_payload (.map es') := by
  have hnd' : (es'.map Prod.fst).Nodup :=
    (List.Perm.nodup_iff (h.map Prod.fst)).mp hnd
  unfold canonicalize_payload
  rw [normalize_map_eq es hnd, normalize_map_eq es' hnd']
  rcases entriesNorm_perm h with ⟨h1, h2⟩ | ⟨l, l', h1, h2, hp⟩
  · rw [h1, h2]
  · rw [h1, h2]
    have hde : dumps (.obj l) = dumps (.obj l') := by
      refine dumps_obj_perm hp ?_
      rw [entriesNorm_keys es l h1]
      exact hnd
    show some (dumps (JVal.obj l)) = some (dumps (JVal.obj l'))
    rw [hde]

/-- C5: canonical encoding is deterministic and mapping-key-order
insensitive.  `canonicalize_payload x = canonicalize_payload x` for every
supported value (the encoder is a pure function), and two string-keyed
mappings equal up to key ordering — entry lists that are permutations of
each other with pairwise distinct keys, which is what two Python dicts
with reordered keys are — canonicalize to the identical string, because
entries are emitted sorted by byte-ascending key with no insignificant
whitespace. -/
theorem c5_canonical_encoding_deterministic :
    (∀ x : Val, canonicalize_payload x = canonicalize_payload x) ∧
    ∀ es es' : List (String × Val), es.Perm es' →
      (es.map Prod.fst).Nodup →
      canonicalize_payload (.map es) = canonicalize_payload (.map es') :=
  ⟨fun _ => rfl, fun _ _ h hnd => canonicalize_map_perm h hnd⟩

/-- Witness for C5 at a concrete reordered two-key mapping. -/
theorem c5_witness :
    [("b", Val.int 1), ("a", Val.null)].Perm
      [("a", Val.null), ("b", Val.int 1)] ∧
    ([("b", Val.int 1), ("a", Val.null)].map Prod.fst).Nodup ∧
    canonicalize_payload (.map [("b", Val.int 1), ("a", Val.null)]) =
      canonicalize_payload (.map [("a", Val.null), ("b", Val.int 1)]) :=
  ⟨List.Perm.swap ("a", Val.null) ("b", Val.int 1) [], by decide,
   c5_canonical_encoding_deterministic.2 _ _
     (List.Perm.swap ("a", Val.null) ("b", Val.int 1) []) (by decide)⟩

/-- C10: canonical encoding is not injective across the supported value
types: the set `{1}` is encoded as the sorted list of its elements'
canonical strings, so it canonicalizes exactly like the list `["1"]`
containing the string `"1"` — structurally different inputs with the
identical canonical string — and fingerprints built over payloads that
differ only in this way coincide for every hash function and every
metadata choice. -/
theorem c10_canonicalization_not_injective :
    Val.set [.int 1] ≠ Val.list [.str "1"] ∧
    canonicalize_payload (.set [.int 1]) =
      canonicalize_payload (.list [.str "1"]) ∧
    ∀ (hash : String → String) (kind nspace scope version : String),
      canonical_fingerprint hash kind nspace
          [("x", Val.set [.int 1])] scope version =
        canonical_fingerprint hash kind nspace
          [("x", Val.list [.str "1"])] scope version :=
  ⟨fun h => Val.noConfusion h, rfl, fun _ _ _ _ _ => rfl⟩

/-- C3: the fingerprint is the digest of the canonical encoding of the
envelope `{version, kind, namespace, scope, payload: CanonicalEncode(p)}` —
the payload canonicalized once on the inside, the envelope canonicalized
again on the outside — and the anchor id is a pure function of the five
inputs: anchors created from identical metadata and (canonically)
identical payloads are identical. -/
theorem c3_fingerprint_envelope (hash : String → String)
    (kind nspace scope version : String) (payload : List (String × Val))
    (canonical : String) (hk : kind ≠ "") (hn : nspace ≠ "")
    (hc : canonicalize_payload (.map payload) = some canonical) :
    (∃ outer,
      canonicalize_payload
        (fingerprint_material kind nspace scope version canonical) =
          some outer ∧
      canonical_fingerprint hash kind nspace payload scope version =
        .ok (hash outer)) ∧
    ∀ payload₂ : List (String × Val),
      canonicalize_payload (.map payload₂) =
          canonicalize_payload (.map payload) →
      IdentityAnchor.create hash kind nspace payload₂ scope version =
        IdentityAnchor.create hash kind nspace payload scope version := by
  constructor
  · refine ⟨dumps (JVal.obj [("version", .str version), ("kind", .str kind),
      ("namespace", .str nspace), ("scope", .str scope),
      ("payload", .str canonical)]), rfl, ?_⟩
    unfold canonical_fingerprint
    rw [if_neg (not_or.mpr ⟨hk, hn⟩), hc]
    exact rfl
  · intro p2 he
    unfold IdentityAnchor.create canonical_fingerprint
    rw [he]

/-- Witness for C3 at the empty payload and the identity stand-in for the
hash. -/
theorem c3_witness_fingerprint :
    (("k" : String) ≠ "") ∧ (("n" : String) ≠ "") ∧
    canonicalize_payload (.map ([] : List (String × Val))) =
      some "\x7b\x7d" ∧
    ((∃ outer,
      canonicalize_payload
        (fingerprint_material "k" "n" "g" "v1" "\x7b\x7d") = some outer ∧
      canonical_fingerprint (fun s => s) "k" "n" [] "g" "v1" =
        .ok ((fun s : String => s) outer)) ∧
    ∀ payload₂ : List (String × Val),
      canonicalize_payload (.map payload₂) =
          canonicalize_payload (.map ([] : List (String × Val))) →
      IdentityAnchor.create (fun s => s) "k" "n" payload₂ "g" "v1" =
        IdentityAnchor.create (fun s => s) "k" "n" [] "g" "v1") :=
  ⟨by decide, by decide, rfl,
   c3_fingerprint_envelope (fun s => s) "k" "n" "g" "v1" [] "\x7b\x7d"
     (by decide) (by decide) rfl⟩

/-- The child set of the edge target after `addChild` contains the new
child id. -/
theorem mem_addChild_self (ch : List (String × Finset String))
    (p cid : String) : cid ∈ (dgetD (addChild ch p cid) p).getD ∅ := by
  unfold addChild
  rw [dgetD_dset_self]
  exact Finset.mem_insert_self cid _

/-- `addChild` with the same child id never removes that id from any child
set. -/
theorem mem_addChild_pres (ch : List (String × Finset String))
    (p q cid : String) (h : cid ∈ (dgetD ch q).getD ∅) :
    cid ∈ (dgetD (addChild ch p cid) q).getD ∅ := by
  unfold addChild
  by_cases hpq : q = p
  · subst hpq
    rw [dgetD_dset_self]
    exact Finset.mem_insert_self cid _
  · rw [dgetD_dset_ne ch p q _ hpq]
    exact h

/-- After linking all parent edges, each parent's child set contains the
new commit id. -/
theorem mem_foldl_addChild : ∀ (ps : List String)
    (ch : List (String × Finset String)) (p cid : String),
    p ∈ ps ∨ cid ∈ (dgetD ch p).getD ∅ →
    cid ∈ (dgetD (ps.foldl (fun ch p => addChild ch p cid) ch) p).getD ∅
  | [], ch, p, cid, h => by
    rcases h with h | h
    · simp at h
    · exact h
  | q :: ps, ch, p, cid, h => by
    simp only [List.foldl_cons]
    refine mem_foldl_addChild ps (addChild ch q cid) p cid ?_
    rcases h with h | h
    · rcases List.mem_cons.mp h with rfl | hrest
      · exact Or.inr (mem_addChild_self ch p cid)
      · exact Or.inl hrest
    · exact Or.inr (mem_addChild_pres ch q p cid h)

/-- Linking parent edges does not touch the child entry of any id outside
the parent list. -/
theorem dgetD_foldl_addChild_ne : ∀ (ps : List String)
    (ch : List (String × Finset String)) (q cid : String), q ∉ ps →
    dgetD (ps.foldl (fun ch p => addChild ch p cid) ch) q = dgetD ch q
  | [], _, _, _, _ => rfl
  | p :: ps, ch, q, cid, h => by
    simp only [List.mem_cons] at h
    push_neg at h
    simp only [List.foldl_cons]
    rw [dgetD_foldl_addChild_ne ps (addChild ch p cid) q cid h.2]
    unfold addChild
    exact dgetD_dset_ne ch p q _ h.1

/-- C4: `append` is atomic.  With any unknown parent id it fails with
`LineageError` and returns the store exactly as it was (no commit stored,
no edge linked).  With all parents known (and the generated uuid fresh, as
the source assumes) it stores exactly one new commit built from the
arguments under the fresh id, leaves every previously stored commit
unchanged, links a child edge from each parent to the new commit, and
registers the new commit as an initially childless node. -/
theorem c4_append_atomic (st : LineageStore) (newId : String) (ts : Int)
    (parents : List String) (op sid sk sns ssc : String)
    (payload : List (String × Val)) (note : String) :
    ((∃ p ∈ parents, dgetD st.commits p = none) →
      st.append newId ts parents op sid sk sns ssc payload note =
        (.error .lineageError, st)) ∧
    ((∀ p ∈ parents, (dgetD st.commits p).isSome) →
      dgetD st.commits newId = none → dgetD st.children newId = none →
      ∃ c st',
        st.append newId ts parents op sid sk sns ssc payload note =
          (.ok c, st') ∧
        c = ⟨newId, ts, parents, op, sid, sk, sns, ssc, payload, note⟩ ∧
        dgetD st'.commits newId = some c ∧
        (∀ id, id ≠ newId → dgetD st'.commits id = dgetD st.commits id) ∧
        (∀ p ∈ parents, newId ∈ st'.children_of p) ∧
        dgetD st'.children newId = some ∅) := by
  constructor
  · intro ⟨p, hp, hnone⟩
    unfold LineageStore.append
    rw [if_neg ?_]
    intro hall
    have := List.all_eq_true.mp hall p hp
    rw [hnone] at this
    simp at this
  · intro hall hfreshC hfreshCh
    have hnp : newId ∉ parents := by
      intro hmem
      have := hall newId hmem
      rw [hfreshC] at this
      simp at this
    unfold LineageStore.append
    rw [if_pos (List.all_eq_true.mpr hall)]
    refine ⟨_, _, rfl, rfl, ?_, ?_, ?_, ?_⟩
    · exact dgetD_dset_self st.commits newId _
    · intro id hid
      exact dgetD_dset_ne st.commits newId id _ hid
    · intro p hp
      have hpne : p ≠ newId := fun he => hnp (he ▸ hp)
      unfold LineageStore.children_of
      show newId ∈ (dgetD (dsetdefault
        (parents.foldl (fun ch q => addChild ch q newId) st.children)
        newId ∅) p).getD ∅
      unfold dsetdefault
      by_cases hdef : (dgetD (parents.foldl
          (fun ch q => addChild ch q newId) st.children) newId).isSome
      · rw [if_pos hdef]
        exact mem_foldl_addChild parents st.children p newId (Or.inl hp)
      · rw [if_neg hdef]
        rw [dgetD_dset_ne _ newId p _ hpne]
        exact mem_foldl_addChild parents st.children p newId (Or.inl hp)
    · show dgetD (dsetdefault
        (parents.foldl (fun ch q => addChild ch q newId) st.children)
        newId ∅) newId = some ∅
      have hnone : dgetD (parents.foldl
          (fun ch q => addChild ch q newId) st.children) newId = none := by
        rw [dgetD_foldl_addChild_ne parents st.children newId newId hnp]
        exact hfreshCh
      unfold dsetdefault
      rw [if_neg (by rw [hnone]; simp)]
      exact dgetD_dset_self _ newId ∅

/-- Witness for C4: an append with a nonexistent parent on the empty store
fails with `LineageError` and returns the empty store unchanged. -/
theorem c4_witness :
    LineageStore.empty.append "G" 0 ["nope"] "add" "s" "k" "n" "g" [] "" =
      (.error .lineageError, LineageStore.empty) :=
  (c4_append_atomic LineageStore.empty "G" 0 ["nope"] "add" "s" "k" "n" "g"
    [] "").1 ⟨"nope", by simp, rfl⟩

/-- Append step used by the demo scenarios: fixed kind/namespace/scope, the
resulting store only. -/
def demoAppend (st : LineageStore) (newId : String) (ts : Int)
    (parents : List String) (op subj : String)
    (payload : List (String × Val)) : LineageStore :=
  (st.append newId ts parents op subj "kau" "ns" "global" payload "").2

/-- A `demoAppend` whose parent check passes is a `Reachable` step. -/
theorem reachable_demoAppend {st : LineageStore} (h : Reachable st)
    (newId : String) (ts : Int) (parents : List String) (op subj : String)
    (payload : List (String × Val))
    (hfresh : dgetD st.commits newId = none)
    (hparents : (parents.all fun p => (dgetD st.commits p).isSome) = true) :
    Reachable (demoAppend st newId ts parents op subj payload) := by
  refine @Reachable.step st newId ts parents op subj "kau" "ns" "global"
    payload ""
    ⟨newId, ts, parents, op, subj, "kau", "ns", "global", payload, ""⟩
    (demoAppend st newId ts parents op subj payload) h hfresh ?_
  unfold demoAppend LineageStore.append
  rw [if_pos hparents]

/-- The diamond store of the spec's ancestry test: genesis `G`, commits `A`
and `B` each with single parent `G`, and a merge `M` with parents
`(A, B)`. -/
def diamondStore : LineageStore :=
  demoAppend (demoAppend (demoAppend (demoAppend LineageStore.empty
    "G" 0 [] "add" "sG" []) "A" 1 ["G"] "add" "sA" [])
    "B" 2 ["G"] "add" "sB" []) "M" 3 ["A", "B"] "merge" "sM" []

/-- The diamond store is built by four appends from the empty store. -/
theorem diamondStore_reachable : Reachable diamondStore :=
  reachable_demoAppend (reachable_demoAppend (reachable_demoAppend
    (reachable_demoAppend Reachable.empty "G" 0 [] "add" "sG" [] rfl rfl)
    "A" 1 ["G"] "add" "sA" [] rfl rfl)
    "B" 2 ["G"] "add" "sB" [] rfl rfl)
    "M" 3 ["A", "B"] "merge" "sM" [] rfl rfl

/-- A successful `ancestors_of` on a known id, or the `KeyError` of a
dangling parent: the fuel bound rules out nontermination on every store. -/
theorem ancestors_of_cases (st : LineageStore) (id : String)
    (hid : (dgetD st.commits id).isSome) :
    (∃ r, st.ancestors_of id = .ok r) ∨
      st.ancestors_of id = .error .keyError := by
  unfold LineageStore.ancestors_of
  rw [if_pos hid]
  exact ancLoop_ok_or_keyError st.commits _ ∅ [id]
    (mu_init_le_fuelOf st.commits id)

/-- C7: `ancestors_of` fails with `LineageError` on an unknown id; on a
parent-closed store (which every append-built store is) it returns for any
known id exactly the transitive closure of the parent edges — and on a
ranked (acyclic) store that closure never contains the id itself; on the
concrete diamond (genesis `G`, `A` and `B` children of `G`, merge `M` of
`(A, B)`) the ancestors of `M` are `{G, A, B}`. -/
theorem c7_ancestors_transitive_closure :
    (∀ (st : LineageStore) (id : String), dgetD st.commits id = none →
      st.ancestors_of id = .error .lineageError) ∧
    (∀ (st : LineageStore) (id : String), ParentsClosed st.commits →
      (dgetD st.commits id).isSome →
      ∃ r, st.ancestors_of id = .ok r ∧
        (∀ x, x ∈ r ↔ Ances st.commits id x) ∧
        ∀ rank, Ranked st.commits rank → id ∉ r) ∧
    diamondStore.ancestors_of "M" = .ok {"G", "A", "B"} := by
  refine ⟨?_, ?_, by decide⟩
  · intro st id h
    unfold LineageStore.ancestors_of
    rw [if_neg (by rw [h]; simp)]
  · intro st id hcl hid
    obtain ⟨r, hok⟩ := ancestors_of_total st hcl id hid
    refine ⟨r, hok, ancestors_of_spec st id hid r hok, ?_⟩
    intro rank hrank hmem
    have hanc : Ances st.commits id id :=
      (ancestors_of_spec st id hid r hok id).mp hmem
    exact absurd (ances_rank_lt hrank hanc) (lt_irrefl _)

/-- Witness for C7: the unknown-id failure at a concrete store. -/
theorem c7_witness :
    LineageStore.empty.ancestors_of "Z" = .error .lineageError :=
  c7_ancestors_transitive_closure.1 LineageStore.empty "Z" rfl

/-- C8: for two ids present in the store, `lca_candidates` is exactly the
intersection of `(ancestors_of(a) ∪ {a})` and `(ancestors_of(b) ∪ {b})`,
and it is symmetric in its two arguments on every store and every pair of
ids. -/
theorem c8_lca_candidates_intersection (st : LineageStore) (a b : String)
    (ha : (dgetD st.commits a).isSome) (hb : (dgetD st.commits b).isSome)
    (A B : Finset String) (hA : st.ancestors_of a = .ok A)
    (hB : st.ancestors_of b = .ok B) :
    st.lca_candidates a b = .ok ((A ∪ {a}) ∩ (B ∪ {b})) ∧
    ∀ x y, st.lca_candidates x y = st.lca_candidates y x := by
  constructor
  · unfold LineageStore.lca_candidates
    rw [if_pos ⟨ha, hb⟩, hA, hB]
    show Except.ok ((insert a A) ∩ (insert b B)) = _
    rw [Finset.insert_eq, Finset.insert_eq, Finset.union_comm {a} A,
      Finset.union_comm {b} B]
  · intro x y
    unfold LineageStore.lca_candidates
    by_cases hx : (dgetD st.commits x).isSome
    · by_cases hy : (dgetD st.commits y).isSome
      · rw [if_pos ⟨hx, hy⟩, if_pos ⟨hy, hx⟩]
        rcases ancestors_of_cases st x hx with ⟨X, hX⟩ | hX <;>
          rcases ancestors_of_cases st y hy with ⟨Y, hY⟩ | hY <;>
          rw [hX, hY]
        · show Except.ok ((insert x X) ∩ (insert y Y)) =
            Except.ok ((insert y Y) ∩ (insert x X))
          rw [Finset.inter_comm]
        · exact rfl
        · exact rfl
        · exact rfl
      · rw [if_neg fun hc => hy hc.2, if_neg fun hc => hy hc.1]
    · by_cases hy : (dgetD st.commits y).isSome
      · rw [if_neg fun hc => hx hc.1, if_neg fun hc => hx hc.2]
      · rw [if_neg fun hc => hx hc.1, if_neg fun hc => hx hc.2]

/-- Witness for C8 on the diamond store: the common ancestors of `A` and
`B` are `{G}` together with neither endpoint. -/
theorem c8_witness :
    diamondStore.lca_candidates "A" "B" =
      .ok ((({"G"} : Finset String) ∪ {"A"}) ∩
        (({"G"} : Finset String) ∪ {"B"})) :=
  (c8_lca_candidates_intersection diamondStore "A" "B" (by decide)
    (by decide) {"G"} {"G"} (by decide) (by decide)).1

/-- C9: on every store reachable by appends from the empty store, the
commit graph is acyclic: the ancestor traversal of any stored commit
terminates with a result set that does not contain the commit itself. -/
theorem c9_reachable_store_acyclic (st : LineageStore) (hr : Reachable st)
    (id : String) (hid : (dgetD st.commits id).isSome) :
    ∃ r, st.ancestors_of id = .ok r ∧ id ∉ r := by
  obtain ⟨rank, B, hrank, -⟩ := reachable_ranked hr
  obtain ⟨r, hok⟩ := ancestors_of_total st hrank.parentsClosed id hid
  refine ⟨r, hok, ?_⟩
  intro hmem
  have hanc : Ances st.commits id id :=
    (ancestors_of_spec st id hid r hok id).mp hmem
  exact absurd (ances_rank_lt hrank hanc) (lt_irrefl _)

/-- Witness for C9 at the diamond store and its merge commit. -/
theorem c9_witness :
    ∃ r, diamondStore.ancestors_of "M" = .ok r ∧ "M" ∉ r :=
  c9_reachable_store_acyclic diamondStore diamondStore_reachable "M"
    (by decide)

/-- A nonempty-metadata fingerprint over a canonicalizable payload
succeeds. -/
theorem canonical_fingerprint_ok (hash : String → String)
    (kind nspace : String) (payload : List (String × Val))
    (scope version : String) (hk : kind ≠ "") (hn : nspace ≠ "")
    (hp : (canonicalize_payload (.map payload)).isSome) :
    ∃ fp, canonical_fingerprint hash kind nspace payload scope version =
      .ok fp := by
  obtain ⟨canonical, hc⟩ := Option.isSome_iff_exists.mp hp
  refine ⟨hash (dumps (JVal.obj [("version", .str version),
    ("kind", .str kind), ("namespace", .str nspace), ("scope", .str scope),
    ("payload", .str canonical)])), ?_⟩
  unfold canonical_fingerprint
  rw [if_neg (not_or.mpr ⟨hk, hn⟩), hc]
  exact rfl

/-- A successful append keeps every already-present commit id present. -/
theorem append_preserves_isSome (st : LineageStore) (newId : String)
    (ts : Int) (parents : List String) (op sid sk sns ssc : String)
    (payload : List (String × Val)) (note : String) (c : Commit)
    (st' : LineageStore)
    (h : st.append newId ts parents op sid sk sns ssc payload note =
      (.ok c, st'))
    (x : String) (hx : (dgetD st.commits x).isSome) :
    (dgetD st'.commits x).isSome := by
  obtain ⟨-, -, hcommits, -⟩ :=
    append_ok_inversion st newId ts parents op sid sk sns ssc payload note
      c st' h
  rw [hcommits]
  by_cases hxn : x = newId
  · rw [hxn, dgetD_dset_self]
    rfl
  · rw [dgetD_dset_ne st.commits newId x c hxn]
    exact hx

/-- The per-commit property guaranteed by `commit_merge` for each resolved
subject payload: both heads as parents, and `merge` under the unchanged id
or `replace` under the recomputed id according to whether the recomputed
anchor id equals the resolved subject id. -/
def CommitMergeProp (hash : String → String)
    (kind nspace scope left right : String) (c : Commit)
    (kv : String × List (String × Val)) : Prop :=
  c.parents = [left, right] ∧
  ∀ aid, canonical_fingerprint hash kind nspace kv.2 scope "v1" = .ok aid →
    (aid = kv.1 → c.op = "merge" ∧ c.subject_id = kv.1) ∧
    (aid ≠ kv.1 → c.op = "replace" ∧ c.subject_id = aid)

/-- The `commit_merge` loop appends one commit per resolved subject with
the claimed shape, as long as both heads exist and every payload
canonicalizes. -/
theorem commitMergeLoop_spec (hash : String → String)
    (left right kind nspace scope note : String) (mkId : Nat → String)
    (mkTs : Nat → Int) (hk : kind ≠ "") (hn : nspace ≠ "") :
    ∀ (merged : List (String × List (String × Val)))
    (store : LineageStore) (i : Nat),
    (dgetD store.commits left).isSome →
    (dgetD store.commits right).isSome →
    (∀ kv ∈ merged, (canonicalize_payload (.map kv.2)).isSome) →
    ∃ cs st',
      commitMergeLoop hash left right kind nspace scope note mkId mkTs
        store i merged = (.ok cs, st') ∧
      List.Forall₂ (CommitMergeProp hash kind nspace scope left right)
        cs merged
  | [], store, i, _, _, _ => ⟨[], store, rfl, List.Forall₂.nil⟩
  | (sid, payload) :: rest, store, i, hl, hr, hcanon => by
    obtain ⟨fp, hfp⟩ := canonical_fingerprint_ok hash kind nspace payload
      scope "v1" hk hn (hcanon (sid, payload) (by simp))
    have hanchor : IdentityAnchor.create hash kind nspace payload scope
        "v1" = .ok ⟨fp, kind, nspace, scope, "v1"⟩ := by
      unfold IdentityAnchor.create
      rw [hfp]
      rfl
    have hballs : ([left, right].all fun p =>
        (dgetD store.commits p).isSome) = true := by
      simp only [List.all_cons, List.all_nil, Bool.and_true]
      rw [hl, hr]
      rfl
    simp only [commitMergeLoop]
    rw [hanchor]
    dsimp only
    set opSid : String × String :=
      if fp = sid then ("merge", sid) else ("replace", fp) with hopSid
    have happ : ∃ c st₁, store.append (mkId i) (mkTs i) [left, right]
        opSid.1 opSid.2 kind nspace scope payload note = (.ok c, st₁) := by
      unfold LineageStore.append
      rw [if_pos hballs]
      exact ⟨_, _, rfl⟩
    obtain ⟨c, st₁, happ⟩ := happ
    obtain ⟨-, hcval, -, -⟩ := append_ok_inversion store (mkId i) (mkTs i)
      [left, right] opSid.1 opSid.2 kind nspace scope payload note c st₁
      happ
    obtain ⟨cs, st₂, hloop, hall⟩ := commitMergeLoop_spec hash left right
      kind nspace scope note mkId mkTs hk hn rest st₁ (i + 1)
      (append_preserves_isSome store (mkId i) (mkTs i) [left, right]
        opSid.1 opSid.2 kind nspace scope payload note c st₁ happ left hl)
      (append_preserves_isSome store (mkId i) (mkTs i) [left, right]
        opSid.1 opSid.2 kind nspace scope payload note c st₁ happ right hr)
      (fun kv hkv => hcanon kv (List.mem_cons_of_mem _ hkv))
    rw [happ]
    dsimp only
    rw [hloop]
    refine ⟨c :: cs, st₂, rfl, List.Forall₂.cons ?_ hall⟩
    constructor
    · rw [hcval]
    · intro aid haid
      rw [hfp] at haid
      obtain rfl : fp = aid := by injection haid
      constructor
      · intro heq
        have : opSid = ("merge", sid) := by rw [hopSid, if_pos heq]
        rw [hcval, this]
        exact ⟨rfl, rfl⟩
      · intro hne
        have : opSid = ("replace", fp) := by rw [hopSid, if_neg hne]
        rw [hcval, this]
        exact ⟨rfl, rfl⟩

/-- C6: `commit_merge` fails with `MergeError` when either parent head is
absent (leaving the store unchanged); otherwise it appends, for every
(subject id, resolved payload) pair, exactly one commit whose parents are
the two original heads, recomputing the Identity Anchor from the
caller-supplied kind/namespace/scope and the resolved payload: a `merge`
commit under the unchanged subject id when the recomputed id equals it, a
`replace` commit under the new id when it differs. -/
theorem c6_commit_merge_shape (hash : String → String)
    (store : LineageStore) (left right : String)
    (decision : MergeDecision)
    (merged : List (String × List (String × Val)))
    (kind nspace scope note : String) (mkId : Nat → String)
    (mkTs : Nat → Int) :
    ((¬ (dgetD store.commits left).isSome ∨
      ¬ (dgetD store.commits right).isSome) →
      commit_merge hash store (left, right) decision merged kind nspace
        scope note mkId mkTs = (.error .mergeError, store)) ∧
    ((dgetD store.commits left).isSome →
      (dgetD store.commits right).isSome →
      kind ≠ "" → nspace ≠ "" →
      (∀ kv ∈ merged, (canonicalize_payload (.map kv.2)).isSome) →
      ∃ cs st',
        commit_merge hash store (left, right) decision merged kind nspace
          scope note mkId mkTs = (.ok cs, st') ∧
        List.Forall₂ (CommitMergeProp hash kind nspace scope left right)
          cs merged) := by
  constructor
  · intro h
    unfold commit_merge
    rw [if_neg ?_]
    intro hc
    rcases h with h | h
    · exact h hc.1
    · exact h hc.2
  · intro hl hr hk hn hcanon
    unfold commit_merge
    rw [if_pos ⟨hl, hr⟩]
    exact commitMergeLoop_spec hash left right kind nspace scope note mkId
      mkTs hk hn merged store 0 hl hr hcanon

/-- Two-root store used to witness `commit_merge`. -/
def twoHeadStore : LineageStore :=
  demoAppend (demoAppend LineageStore.empty "L" 0 [] "add" "sL" [])
    "R" 1 [] "add" "sR" []

/-- Witness for C6 at a concrete two-head store and a single resolved
subject payload. -/
theorem c6_witness :
    ∃ cs st',
      commit_merge (fun s => s) twoHeadStore ("L", "R")
        ⟨none, "L", "R", [], [], ""⟩ [("x", [("a", Val.int 1)])] "kau"
        "ns" "global" "merge commit" (fun i => toString i) (fun _ => 2) =
        (.ok cs, st') ∧
      List.Forall₂ (CommitMergeProp (fun s => s) "kau" "ns" "global" "L"
        "R") cs [("x", [("a", Val.int 1)])] :=
  (c6_commit_merge_shape (fun s => s) twoHeadStore "L" "R"
    ⟨none, "L", "R", [], [], ""⟩ [("x", [("a", Val.int 1)])] "kau" "ns"
    "global" "merge commit" (fun i => toString i) (fun _ => 2)).2
    (by decide) (by decide) (by decide) (by decide)
    (fun kv hkv => by
      simp only [List.mem_singleton] at hkv
      rw [hkv]
      rfl)

/-- The store exhibiting a subject visible only in the base view: genesis
`G` (subject `X`), `A1`/`B1` children of `G`, two parallel merge commits
`M1` and `M2` both with parents `(A1, B1)`, and heads `L` (child of `M1`) and
`R` (child of `M2`).  Both branch chains stop at their merge commit, so
neither view contains `X`, while every base candidate's chain does. -/
def cxStore : LineageStore :=
  demoAppend (demoAppend (demoAppend (demoAppend (demoAppend (demoAppend
    (demoAppend LineageStore.empty
    "G" 0 [] "add" "X" [("v", .int 0)])
    "A1" 1 ["G"] "add" "Y" [("v", .int 1)])
    "B1" 2 ["G"] "add" "Z" [("v", .int 2)])
    "M1" 3 ["A1", "B1"] "merge" "W1" [("v", .int 3)])
    "L" 4 ["M1"] "add" "S1" [("v", .int 4)])
    "M2" 5 ["A1", "B1"] "merge" "W2" [("v", .int 5)])
    "R" 6 ["M2"] "add" "S2" [("v", .int 6)]

/-- A dict lookup succeeds exactly when the key occurs among the keys. -/
theorem dgetD_isSome_iff {α : Type} : ∀ (m : List (String × α)) (k : String),
    (dgetD m k).isSome ↔ k ∈ m.map Prod.fst
  | [], k => by simp [dgetD]
  | (k', v) :: rest, k => by
    by_cases h : k' = k
    · subst h
      simp [dgetD]
    · show (if k' = k then some v else dgetD rest k).isSome ↔ _
      rw [if_neg h, dgetD_isSome_iff rest k]
      simp only [List.map_cons, List.mem_cons]
      constructor
      · exact fun hm => Or.inr hm
      · intro hm
        rcases hm with he | hm
        · exact absurd he.symm h
        · exact hm

/-- A subject present in at least one branch view is always classified
(the `assert l and r` can only fail for a base-view-only subject). -/
theorem classifySubject_isSome (sid : String) (l r b : Option Commit)
    (h : l.isSome ∨ r.isSome) :
    ∃ x, classifySubject sid l r b = some x := by
  unfold classifySubject
  cases l with
  | none =>
    cases r with
    | none => simp at h
    | some rc => exact ⟨_, rfl⟩
  | some lc =>
    cases r with
    | none => exact ⟨_, rfl⟩
    | some rc =>
      dsimp only
      cases b with
      | none =>
        dsimp only
        split_ifs <;> exact ⟨_, rfl⟩
      | some bc =>
        dsimp only
        split_ifs <;> exact ⟨_, rfl⟩

/-- Every action produced by the classification step carries the subject id
it was produced for. -/
theorem classifySubject_inl_sid {sid : String} {l r b : Option Commit}
    {a : MergeAction} (hx : classifySubject sid l r b = some (.inl a)) :
    a.subject_id = sid := by
  unfold classifySubject at hx
  cases l with
  | none =>
    cases r with
    | none => simp at hx
    | some rc =>
      obtain rfl := Sum.inl.inj (Option.some.inj hx)
      rfl
  | some lc =>
    cases r with
    | none =>
      obtain rfl := Sum.inl.inj (Option.some.inj hx)
      rfl
    | some rc =>
      dsimp only at hx
      cases b with
      | none =>
        dsimp only at hx
        split_ifs at hx
        · obtain rfl := Sum.inl.inj (Option.some.inj hx)
          rfl
        · simp at hx
      | some bc =>
        dsimp only at hx
        split_ifs at hx
        · obtain rfl := Sum.inl.inj (Option.some.inj hx)
          rfl
        · obtain rfl := Sum.inl.inj (Option.some.inj hx)
          rfl
        · obtain rfl := Sum.inl.inj (Option.some.inj hx)
          rfl
        · simp at hx

/-- Every conflict produced by the classification step carries the subject
id it was produced for. -/
theorem classifySubject_inr_sid {sid : String} {l r b : Option Commit}
    {c : MergeConflict} (hx : classifySubject sid l r b = some (.inr c)) :
    c.subject_id = sid := by
  unfold classifySubject at hx
  cases l with
  | none =>
    cases r with
    | none => simp at hx
    | some rc => simp at hx
  | some lc =>
    cases r with
    | none => simp at hx
    | some rc =>
      dsimp only at hx
      cases b with
      | none =>
        dsimp only at hx
        split_ifs at hx
        · simp at hx
        · obtain rfl := Sum.inr.inj (Option.some.inj hx)
          rfl
      | some bc =>
        dsimp only at hx
        split_ifs at hx
        · simp at hx
        · simp at hx
        · simp at hx
        · obtain rfl := Sum.inr.inj (Option.some.inj hx)
          rfl

/-- The classification loop succeeds as soon as every subject is present
in at least one branch view. -/
theorem classifyLoop_ok (vl vr vb : List (String × Commit)) :
    ∀ subjects : List String,
    (∀ sid ∈ subjects, (dgetD vl sid).isSome ∨ (dgetD vr sid).isSome) →
    ∃ as cs, classifyLoop vl vr vb subjects = .ok (as, cs)
  | [], _ => ⟨[], [], rfl⟩
  | sid :: rest, hcov => by
    obtain ⟨x, hx⟩ := classifySubject_isSome sid (dgetD vl sid)
      (dgetD vr sid) (dgetD vb sid) (hcov sid (List.mem_cons_self sid rest))
    obtain ⟨as, cs, hrest⟩ := classifyLoop_ok vl vr vb rest
      fun s hs => hcov s (List.mem_cons_of_mem sid hs)
    simp only [classifyLoop]
    rw [hx]
    cases x with
    | inl a =>
      rw [hrest]
      exact ⟨a :: as, cs, rfl⟩
    | inr c =>
      rw [hrest]
      exact ⟨as, c :: cs, rfl⟩

/-- Per-subject characterization of the classification loop on a
duplicate-free subject list: filtering the produced actions (resp.
conflicts) by a subject id yields exactly the one entry the classification
step produces for that subject, or nothing. -/
theorem classifyLoop_filter (vl vr vb : List (String × Commit)) :
    ∀ (subjects : List String) (as : List MergeAction)
    (cs : List MergeConflict), subjects.Nodup →
    classifyLoop vl vr vb subjects = .ok (as, cs) →
    (∀ a ∈ as, a.subject_id ∈ subjects) ∧
    (∀ c ∈ cs, c.subject_id ∈ subjects) ∧
    ∀ sid ∈ subjects,
      (as.filter fun a => a.subject_id == sid) =
        (match classifySubject sid (dgetD vl sid) (dgetD vr sid)
            (dgetD vb sid) with
         | some (.inl a) => [a]
         | _ => []) ∧
      (cs.filter fun c => c.subject_id == sid) =
        (match classifySubject sid (dgetD vl sid) (dgetD vr sid)
            (dgetD vb sid) with
         | some (.inr c) => [c]
         | _ => [])
  | [], as, cs, _, h => by
    simp only [classifyLoop, Except.ok.injEq, Prod.mk.injEq] at h
    obtain ⟨rfl, rfl⟩ := h
    exact ⟨by simp, by simp, by simp⟩
  | sid₀ :: rest, as, cs, hnd, h => by
    have hnd' : rest.Nodup := (List.nodup_cons.mp hnd).2
    have hsid₀ : sid₀ ∉ rest := (List.nodup_cons.mp hnd).1
    simp only [classifyLoop] at h
    cases hx : classifySubject sid₀ (dgetD vl sid₀) (dgetD vr sid₀)
        (dgetD vb sid₀) with
    | none => rw [hx] at h; simp at h
    | some x =>
      rw [hx] at h
      cases x with
      | inl a =>
        cases hrest : classifyLoop vl vr vb rest with
        | error e => rw [hrest] at h; simp [Except.map] at h
        | ok p =>
          obtain ⟨as', cs'⟩ := p
          rw [hrest] at h
          simp only [Except.map, Except.ok.injEq, Prod.mk.injEq] at h
          obtain ⟨rfl, rfl⟩ := h
          obtain ⟨ihm1, ihm2, ihf⟩ :=
            classifyLoop_filter vl vr vb rest as' cs' hnd' hrest
          have hasid : a.subject_id = sid₀ := classifySubject_inl_sid hx
          refine ⟨?_, ?_, ?_⟩
          · intro x hx'
            rcases List.mem_cons.mp hx' with rfl | hx'
            · rw [hasid]
              exact List.mem_cons_self _ _
            · exact List.mem_cons_of_mem _ (ihm1 x hx')
          · intro x hx'
            exact List.mem_cons_of_mem _ (ihm2 x hx')
          · intro sid hsid
            rcases List.mem_cons.mp hsid with rfl | hsid
            · rw [hx]
              constructor
              · rw [List.filter_cons]
                rw [if_pos (by rw [hasid]; exact beq_self_eq_true sid)]
                rw [List.filter_eq_nil_iff.mpr ?_]
                intro x hx'
                simp only [beq_iff_eq]
                intro he
                exact hsid₀ (he ▸ ihm1 x hx')
              · rw [List.filter_eq_nil_iff.mpr ?_]
                intro x hx'
                simp only [beq_iff_eq]
                intro he
                exact hsid₀ (he ▸ ihm2 x hx')
            · have hne : sid₀ ≠ sid := fun he => hsid₀ (he ▸ hsid)
              obtain ⟨ih1, ih2⟩ := ihf sid hsid
              constructor
              · rw [List.filter_cons,
                  if_neg (by simp only [beq_iff_eq]; rw [hasid]; simp [hne]),
                  ih1]
              · exact ih2
      | inr c =>
        cases hrest : classifyLoop vl vr vb rest with
        | error e => rw [hrest] at h; simp [Except.map] at h
        | ok p =>
          obtain ⟨as', cs'⟩ := p
          rw [hrest] at h
          simp only [Except.map, Except.ok.injEq, Prod.mk.injEq] at h
          obtain ⟨rfl, rfl⟩ := h
          obtain ⟨ihm1, ihm2, ihf⟩ :=
            classifyLoop_filter vl vr vb rest as' cs' hnd' hrest
          have hcsid : c.subject_id = sid₀ := classifySubject_inr_sid hx
          refine ⟨?_, ?_, ?_⟩
          · intro x hx'
            exact List.mem_cons_of_mem _ (ihm1 x hx')
          · intro x hx'
            rcases List.mem_cons.mp hx' with rfl | hx'
            · rw [hcsid]
              exact List.mem_cons_self _ _
            · exact List.mem_cons_of_mem _ (ihm2 x hx')
          · intro sid hsid
            rcases List.mem_cons.mp hsid with rfl | hsid
            · rw [hx]
              constructor
              · rw [List.filter_eq_nil_iff.mpr ?_]
                intro x hx'
                simp only [beq_iff_eq]
                intro he
                exact hsid₀ (he ▸ ihm1 x hx')
              · rw [List.filter_cons]
                rw [if_pos (by rw [hcsid]; exact beq_self_eq_true sid)]
                rw [List.filter_eq_nil_iff.mpr ?_]
                intro x hx'
                simp only [beq_iff_eq]
                intro he
                exact hsid₀ (he ▸ ihm2 x hx')
            · have hne : sid₀ ≠ sid := fun he => hsid₀ (he ▸ hsid)
              obtain ⟨ih1, ih2⟩ := ihf sid hsid
              constructor
              · exact ih1
              · rw [List.filter_cons,
                  if_neg (by simp only [beq_iff_eq]; rw [hcsid]; simp [hne]),
                  ih2]

/-- The classification C1 asserts for one subject id, phrased over the
left/right/base views and the actions/conflicts of a decision: present
only in one branch view yields exactly that branch's accept action;
present in both with canonically identical payload signatures yields
exactly one `accept_either`; present in both with differing signatures
where exactly one side's signature equals the base view's yields exactly
the action accepting the diverged side; present in both with differing
signatures and no usable base entry, or with both sides diverged from it,
yields exactly one conflict entry and no action. -/
def SubjectClassified (vl vr vb : List (String × Commit))
    (acts : List MergeAction) (confs : List MergeConflict)
    (sid : String) : Prop :=
  match dgetD vl sid, dgetD vr sid with
  | some lc, none =>
    (acts.filter fun a => a.subject_id == sid) =
      [⟨sid, "accept_left", "subject appears only on left branch",
        some lc.commit_id, none, none⟩] ∧
    (confs.filter fun c => c.subject_id == sid) = []
  | none, some rc =>
    (acts.filter fun a => a.subject_id == sid) =
      [⟨sid, "accept_right", "subject appears only on right branch",
        none, some rc.commit_id, none⟩] ∧
    (confs.filter fun c => c.subject_id == sid) = []
  | none, none => True
  | some lc, some rc =>
    if _semantic_free_payload_change lc = _semantic_free_payload_change rc
    then
      (acts.filter fun a => a.subject_id == sid) =
        [⟨sid, "accept_either", "structurally equivalent payload changes",
          some lc.commit_id, some rc.commit_id, none⟩] ∧
      (confs.filter fun c => c.subject_id == sid) = []
    else
      match dgetD vb sid with
      | some bc =>
        if _semantic_free_payload_change lc =
              _semantic_free_payload_change bc ∧
            _semantic_free_payload_change rc ≠
              _semantic_free_payload_change bc then
          (acts.filter fun a => a.subject_id == sid) =
            [⟨sid, "accept_right", "left matches base; right diverges",
              none, some rc.commit_id, some bc.commit_id⟩] ∧
          (confs.filter fun c => c.subject_id == sid) = []
        else if _semantic_free_payload_change rc =
              _semantic_free_payload_change bc ∧
            _semantic_free_payload_change lc ≠
              _semantic_free_payload_change bc then
          (acts.filter fun a => a.subject_id == sid) =
            [⟨sid, "accept_left", "right matches base; left diverges",
              some lc.commit_id, none, some bc.commit_id⟩] ∧
          (confs.filter fun c => c.subject_id == sid) = []
        else
          (acts.filter fun a => a.subject_id == sid) = [] ∧
          (confs.filter fun c => c.subject_id == sid) =
            [⟨sid, "divergent_updates",
              "both branches diverged for same subject_id; requires explicit merge policy",
              some bc.commit_id, lc.commit_id, rc.commit_id,
              _semantic_free_payload_change lc,
              _semantic_free_payload_change rc⟩]
      | none =>
        (acts.filter fun a => a.subject_id == sid) = [] ∧
        (confs.filter fun c => c.subject_id == sid) =
          [⟨sid, "divergent_updates",
            "both branches diverged for same subject_id; requires explicit merge policy",
            none, lc.commit_id, rc.commit_id,
            _semantic_free_payload_change lc,
            _semantic_free_payload_change rc⟩]

/-- The per-subject filter shape produced by the loop implies the claimed
classification. -/
theorem subject_classified_of_filter (vl vr vb : List (String × Commit))
    (acts : List MergeAction) (confs : List MergeConflict) (sid : String)
    (h1 : (acts.filter fun a => a.subject_id == sid) =
      (match classifySubject sid (dgetD vl sid) (dgetD vr sid)
          (dgetD vb sid) with
       | some (.inl a) => [a]
       | _ => []))
    (h2 : (confs.filter fun c => c.subject_id == sid) =
      (match classifySubject sid (dgetD vl sid) (dgetD vr sid)
          (dgetD vb sid) with
       | some (.inr c) => [c]
       | _ => [])) :
    SubjectClassified vl vr vb acts confs sid := by
  unfold SubjectClassified
  unfold classifySubject at h1 h2
  revert h1 h2
  cases dgetD vl sid with
  | none =>
    cases dgetD vr sid with
    | none =>
      intro h1 h2
      trivial
    | some rc =>
      dsimp only
      intro h1 h2
      exact ⟨h1, h2⟩
  | some lc =>
    cases dgetD vr sid with
    | none =>
      dsimp only
      intro h1 h2
      exact ⟨h1, h2⟩
    | some rc =>
      dsimp only
      by_cases hs : _semantic_free_payload_change lc =
          _semantic_free_payload_change rc
      · simp only [if_pos hs]
        intro h1 h2
        exact ⟨h1, h2⟩
      · simp only [if_neg hs]
        cases dgetD vb sid with
        | none =>
          dsimp only
          intro h1 h2
          exact ⟨h1, h2⟩
        | some bc =>
          dsimp only
          by_cases hc1 : _semantic_free_payload_change lc =
              _semantic_free_payload_change bc ∧
              _semantic_free_payload_change rc ≠
              _semantic_free_payload_change bc
          · simp only [if_pos hc1]
            intro h1 h2
            exact ⟨h1, h2⟩
          · simp only [if_neg hc1]
            by_cases hc2 : _semantic_free_payload_change rc =
                _semantic_free_payload_change bc ∧
                _semantic_free_payload_change lc ≠
                _semantic_free_payload_change bc
            · simp only [if_pos hc2]
              intro h1 h2
              exact ⟨h1, h2⟩
            · simp only [if_neg hc2]
              intro h1 h2
              exact ⟨h1, h2⟩

/-- A subject id is enumerated by the analysis exactly when some view
contains it. -/
theorem mem_analysisSubjects {vl vr vb : List (String × Commit)}
    (sid : String) :
    sid ∈ analysisSubjects vl vr vb ↔
      (dgetD vl sid).isSome ∨ (dgetD vr sid).isSome ∨
        (dgetD vb sid).isSome := by
  unfold analysisSubjects
  rw [List.mem_insertionSort, List.mem_dedup, List.mem_append,
    List.mem_append, dgetD_isSome_iff, dgetD_isSome_iff, dgetD_isSome_iff]
  tauto

/-- The analysis enumerates each subject id once. -/
theorem analysisSubjects_nodup (vl vr vb : List (String × Commit)) :
    (analysisSubjects vl vr vb).Nodup :=
  (List.Perm.nodup_iff (List.perm_insertionSort strLe _)).mpr
    (List.nodup_dedup _)

/-- C1 (amended): for heads present in the store whose base selection and
chain walks succeed, and whose base view only mentions subjects that some
branch view also mentions, `three_way_merge_analysis` returns a decision
carrying the chosen base and the two heads and classifies every subject id
in the union of the left, right, and base views exactly as the claim
states (`SubjectClassified`): only-left → one `accept_left`; only-right →
one `accept_right`; both with canonically identical payloads → one
`accept_either`; both differing with exactly one side canonically equal to
the base view's payload → one action accepting the diverged side; both
differing with no usable base entry or both sides diverged → exactly one
conflict entry and no action. -/
theorem c1_classification_per_subject
    (store : LineageStore) (lh rh : String) (base : Option String)
    (lchain rchain : List Commit) (vb : List (String × Commit))
    (hl : (dgetD store.commits lh).isSome)
    (hr : (dgetD store.commits rh).isSome)
    (hpb : _pick_base store lh rh = .ok base)
    (hlc : _commit_chain store lh = .ok lchain)
    (hrc : _commit_chain store rh = .ok rchain)
    (hbl : baseLatestOf store base = .ok vb)
    (hcover : ∀ sid, (dgetD vb sid).isSome →
      (dgetD (_index_latest_by_subject lchain) sid).isSome ∨
      (dgetD (_index_latest_by_subject rchain) sid).isSome) :
    ∃ d, three_way_merge_analysis store lh rh = .ok d ∧
      d.base_commit = base ∧ d.left_commit = lh ∧ d.right_commit = rh ∧
      ∀ sid,
        (dgetD (_index_latest_by_subject lchain) sid).isSome ∨
        (dgetD (_index_latest_by_subject rchain) sid).isSome ∨
        (dgetD vb sid).isSome →
        SubjectClassified (_index_latest_by_subject lchain)
          (_index_latest_by_subject rchain) vb d.actions d.conflicts sid := by
  have hsubs_cov : ∀ sid ∈ analysisSubjects
      (_index_latest_by_subject lchain) (_index_latest_by_subject rchain)
      vb,
      (dgetD (_index_latest_by_subject lchain) sid).isSome ∨
        (dgetD (_index_latest_by_subject rchain) sid).isSome := by
    intro sid hsid
    rcases (mem_analysisSubjects sid).mp hsid with h | h | h
    · exact Or.inl h
    · exact Or.inr h
    · exact hcover sid h
  obtain ⟨as, cs, hloop⟩ := classifyLoop_ok
    (_index_latest_by_subject lchain) (_index_latest_by_subject rchain) vb
    (analysisSubjects (_index_latest_by_subject lchain)
      (_index_latest_by_subject rchain) vb) hsubs_cov
  obtain ⟨-, -, hfilter⟩ := classifyLoop_filter
    (_index_latest_by_subject lchain) (_index_latest_by_subject rchain) vb
    (analysisSubjects (_index_latest_by_subject lchain)
      (_index_latest_by_subject rchain) vb) as cs
    (analysisSubjects_nodup _ _ _) hloop
  refine ⟨⟨base, lh, rh, as, cs, mergeNote⟩, ?_, rfl, rfl, rfl, ?_⟩
  · unfold three_way_merge_analysis
    rw [if_pos ⟨hl, hr⟩, hpb]
    dsimp only
    rw [hlc]
    dsimp only
    rw [hrc]
    dsimp only
    rw [hbl]
    dsimp only
    rw [hloop]
  · intro sid hsid
    obtain ⟨h1, h2⟩ := hfilter sid ((mem_analysisSubjects sid).mpr hsid)
    exact subject_classified_of_filter _ _ _ as cs sid h1 h2

/-- Store for the no-conflict merge scenario: shared genesis `G` (subject
`base`), left head `B` adding subject `sB`, right head `C` adding subject
`sC`. -/
def mergeDemoStore : LineageStore :=
  demoAppend (demoAppend (demoAppend LineageStore.empty
    "G" 0 [] "add" "base" []) "B" 1 ["G"] "add" "sB" [("v", .int 1)])
    "C" 2 ["G"] "add" "sC" [("v", .int 2)]

/-- The genesis commit record of `mergeDemoStore`. -/
def gRec : Commit := ⟨"G", 0, [], "add", "base", "kau", "ns", "global", [], ""⟩

/-- The left head commit record of `mergeDemoStore`. -/
def bRec : Commit :=
  ⟨"B", 1, ["G"], "add", "sB", "kau", "ns", "global", [("v", Val.int 1)], ""⟩

/-- The right head commit record of `mergeDemoStore`. -/
def cRec : Commit :=
  ⟨"C", 2, ["G"], "add", "sC", "kau", "ns", "global", [("v", Val.int 2)], ""⟩

/-- Witness for C1 on the no-conflict scenario store. -/
theorem c1_witness :
    ∃ d, three_way_merge_analysis mergeDemoStore "B" "C" = .ok d ∧
      d.base_commit = some "G" ∧ d.left_commit = "B" ∧
      d.right_commit = "C" ∧
      ∀ sid,
        (dgetD (_index_latest_by_subject [gRec, bRec]) sid).isSome ∨
        (dgetD (_index_latest_by_subject [gRec, cRec]) sid).isSome ∨
        (dgetD [("base", gRec)] sid).isSome →
        SubjectClassified (_index_latest_by_subject [gRec, bRec])
          (_index_latest_by_subject [gRec, cRec]) [("base", gRec)]
          d.actions d.conflicts sid :=
  c1_classification_per_subject mergeDemoStore "B" "C" (some "G")
    [gRec, bRec] [gRec, cRec] [("base", gRec)]
    (by decide) (by decide) (by decide) rfl rfl rfl
    (by
      intro sid h
      by_cases he : "base" = sid
      · subst he
        exact Or.inl rfl
      · exact absurd h (by simp [dgetD, he]))

/-- C1 counterexample: on `cxStore` both heads exist, yet the analysis
returns no decision at all (it raises `AssertionError` on the
base-view-only subject `X`), so it does not classify each subject id in
the union of the three views. -/
theorem c1_counterexample_base_only_subject :
    (dgetD cxStore.commits "L").isSome ∧
    (dgetD cxStore.commits "R").isSome ∧
    (∀ d, three_way_merge_analysis cxStore "L" "R" ≠ .ok d) ∧
    three_way_merge_analysis cxStore "L" "R" = .error .assertionError := by
  refine ⟨by decide, by decide, ?_, by decide⟩
  intro d hd
  rw [show three_way_merge_analysis cxStore "L" "R" =
    .error .assertionError from by decide] at hd
  exact Except.noConfusion hd

/-- The counterexample store is built by seven appends from the empty
store. -/
theorem cxStore_reachable : Reachable cxStore :=
  reachable_demoAppend (reachable_demoAppend (reachable_demoAppend
    (reachable_demoAppend (reachable_demoAppend (reachable_demoAppend
    (reachable_demoAppend Reachable.empty
    "G" 0 [] "add" "X" [("v", .int 0)] rfl rfl)
    "A1" 1 ["G"] "add" "Y" [("v", .int 1)] rfl rfl)
    "B1" 2 ["G"] "add" "Z" [("v", .int 2)] rfl rfl)
    "M1" 3 ["A1", "B1"] "merge" "W1" [("v", .int 3)] rfl rfl)
    "L" 4 ["M1"] "add" "S1" [("v", .int 4)] rfl rfl)
    "M2" 5 ["A1", "B1"] "merge" "W2" [("v", .int 5)] rfl rfl)
    "R" 6 ["M2"] "add" "S2" [("v", .int 6)] rfl rfl

/-- C2: the analysis raises `MergeError` whenever a head id is absent from
the store, but failure is not confined to that case: on the append-built
store `cxStore` both heads exist and the analysis still fails — the
`assert l and r` in the per-subject loop raises `AssertionError` for the
subject `X` that is visible only in the base view, contradicting the
raises-iff reading. -/
theorem c2_merge_error_iff_refuted :
    (∀ (store : LineageStore) (lh rh : String),
      ¬ ((dgetD store.commits lh).isSome ∧
        (dgetD store.commits rh).isSome) →
      three_way_merge_analysis store lh rh = .error .mergeError) ∧
    Reachable cxStore ∧
    (dgetD cxStore.commits "L").isSome ∧
    (dgetD cxStore.commits "R").isSome ∧
    three_way_merge_analysis cxStore "L" "R" = .error .assertionError := by
  refine ⟨?_, cxStore_reachable, by decide, by decide, by decide⟩
  intro store lh rh h
  unfold three_way_merge_analysis
  rw [if_neg h]

/-- Witness for C2's absent-head direction at a concrete store. -/
theorem c2_witness :
    three_way_merge_analysis LineageStore.empty "a" "b" =
      .error .mergeError :=
  c2_merge_error_iff_refuted.1 LineageStore.empty "a" "b" (by decide)
